import Mathlib

/-!
Shallow embedding of the Assignment2 propositional inference system
(`parser.py`, `knowledge_base.py`, `algorithms/resolution_prover.py`,
`algorithms/truth_table.py`) and proofs about it.

Conventions of the embedding:
* Python class hierarchy `LogicalExpression` (Atom / Negation / Conjunction /
  Disjunction / Implication / Biconditional) becomes the inductive `Expression`.
* Python sets of literal strings (`Clause.literals`) become `Finset String`.
* The resolution engine's working set of clauses (a Python `set`) is modelled
  as a duplicate-free `List Clause` with insert-if-absent; the boolean verdict
  and the final trace message are independent of set-iteration order, so this
  is faithful for every statement proved below.
* Fallible Python code (`raise ValueError`) returns `Option`.
* The unbounded `while iteration < max_iterations` loop is structural
  recursion on the remaining iteration budget (1000 at the entry point).
-/

/-- The expression AST of `knowledge_base.py` (LogicalExpression and its
subclasses).  `BinaryExpression.__eq__` compares the exact subclass and the
two children, which is precisely structural equality of this inductive. -/
inductive Expression
  | Atom (symbol : String)
  | Negation (operand : Expression)
  | Conjunction (left right : Expression)
  | Disjunction (left right : Expression)
  | Implication (left right : Expression)
  | Biconditional (left right : Expression)
deriving DecidableEq, Repr

open Expression

/-- Structural size measure used for termination of the rewrite passes. -/
def esize : Expression → Nat
  | Atom _ => 1
  | Negation e => esize e + 1
  | Conjunction l r => esize l + esize r + 1
  | Disjunction l r => esize l + esize r + 1
  | Implication l r => esize l + esize r + 1
  | Biconditional l r => esize l + esize r + 1

/-- Characters of `str(expr)`: `Atom.__str__` is the symbol, `Negation.__str__`
is `~` + operand, `BinaryExpression.__str__` is `(left op right)` with the
operator `&`, `||`, `=>` or `<=>` of the subclass. -/
def strChars : Expression → List Char
  | Atom s => s.data
  | Negation e => '~' :: strChars e
  | Conjunction l r => '(' :: (strChars l ++ ' ' :: '&' :: ' ' :: (strChars r ++ [')']))
  | Disjunction l r => '(' :: (strChars l ++ ' ' :: '|' :: '|' :: ' ' :: (strChars r ++ [')']))
  | Implication l r => '(' :: (strChars l ++ ' ' :: '=' :: '>' :: ' ' :: (strChars r ++ [')']))
  | Biconditional l r => '(' :: (strChars l ++ ' ' :: '<' :: '=' :: '>' :: ' ' :: (strChars r ++ [')']))

/-- `str(expr)` of `knowledge_base.py` as a `String`. -/
def strExpr (e : Expression) : String := String.mk (strChars e)

/-- First CNF pass of `convert_to_cnf` (`resolution_prover.py`):
`Biconditional(p,q)` is rewritten to `(p => q) & (q => p)` WITHOUT recursing
into `p` and `q`; every other binary node and `Negation` recurse into their
children; atoms are returned unchanged.  (The `isinstance(expr, Biconditional)`
branch of the source returns the rewritten node directly.) -/
def eliminate_biconditionals : Expression → Expression
  | Biconditional l r => Conjunction (Implication l r) (Implication r l)
  | Conjunction l r => Conjunction (eliminate_biconditionals l) (eliminate_biconditionals r)
  | Disjunction l r => Disjunction (eliminate_biconditionals l) (eliminate_biconditionals r)
  | Implication l r => Implication (eliminate_biconditionals l) (eliminate_biconditionals r)
  | Negation e => Negation (eliminate_biconditionals e)
  | Atom s => Atom s

/-- Second CNF pass: `Implication(p,q)` becomes `~p || q` WITHOUT recursing
into `p` and `q`; other binary nodes (including `Biconditional`, caught by the
`isinstance(expr, BinaryExpression)` branch) and `Negation` recurse. -/
def eliminate_implications : Expression → Expression
  | Implication l r => Disjunction (Negation l) r
  | Conjunction l r => Conjunction (eliminate_implications l) (eliminate_implications r)
  | Disjunction l r => Disjunction (eliminate_implications l) (eliminate_implications r)
  | Biconditional l r => Biconditional (eliminate_implications l) (eliminate_implications r)
  | Negation e => Negation (eliminate_implications e)
  | Atom s => Atom s

mutual

/-- Third CNF pass (`move_negations_inward`): double negation elimination and
De Morgan; a `Negation` whose operand is none of `Negation`, `Conjunction`,
`Disjunction` is returned unchanged (the source comment says "Negation of
atom - keep as is", which also silently covers `~Implication`/`~Biconditional`
operands); non-negation binary nodes recurse; atoms unchanged. -/
def move_negations_inward : Expression → Expression
  | Negation e => neg_inward e
  | Conjunction l r => Conjunction (move_negations_inward l) (move_negations_inward r)
  | Disjunction l r => Disjunction (move_negations_inward l) (move_negations_inward r)
  | Implication l r => Implication (move_negations_inward l) (move_negations_inward r)
  | Biconditional l r => Biconditional (move_negations_inward l) (move_negations_inward r)
  | Atom s => Atom s

/-- `move_negations_inward (Negation e)`, split out by the operand shape so
the recursion is structural: `neg_inward e` is definitionally
`move_negations_inward (Negation e)` of the source for each operand case. -/
def neg_inward : Expression → Expression
  | Negation x => move_negations_inward x
  | Conjunction l r => Disjunction (neg_inward l) (neg_inward r)
  | Disjunction l r => Conjunction (neg_inward l) (neg_inward r)
  | e => Negation e

end

/-- Distribution of a disjunction whose two sides are already normalized:
if the left side is a conjunction distribute it over the right, else if the
right side is a conjunction distribute the left over it, else keep the
disjunction.  This is the inner case analysis of `distribute_or_over_and`
applied to the already-recursively-normalized `left`/`right`; the theorem
`distribute_or_over_and_eq_source` below proves that the composition
satisfies the source's literal recursion equations.  `distOrR` is the
`elif right is Conjunction` half, split out (for a non-conjunction left
operand) so that both functions are structurally recursive. -/
def distOrR (l : Expression) : Expression → Expression
  | Conjunction a b => Conjunction (distOrR l a) (distOrR l b)
  | r => Disjunction l r

def distOr : Expression → Expression → Expression
  | Conjunction a b, r => Conjunction (distOr a r) (distOr b r)
  | l, r => distOrR l r

/-- Fourth CNF pass (`distribute_or_over_and`): on a disjunction, first
normalize both children recursively, then distribute OR over AND; recurse
through conjunctions and negations; everything else unchanged. -/
def distribute_or_over_and : Expression → Expression
  | Disjunction l r => distOr (distribute_or_over_and l) (distribute_or_over_and r)
  | Conjunction l r => Conjunction (distribute_or_over_and l) (distribute_or_over_and r)
  | Negation e => Negation (distribute_or_over_and e)
  | Implication l r => Implication l r
  | Biconditional l r => Biconditional l r
  | Atom s => Atom s

/-- `convert_to_cnf`: the four passes applied in order. -/
def convert_to_cnf (e : Expression) : Expression :=
  distribute_or_over_and (move_negations_inward (eliminate_implications (eliminate_biconditionals e)))

/-- Does the tree contain a `Biconditional` node anywhere? -/
def hasBiconditional : Expression → Bool
  | Biconditional _ _ => true
  | Conjunction l r => hasBiconditional l || hasBiconditional r
  | Disjunction l r => hasBiconditional l || hasBiconditional r
  | Implication l r => hasBiconditional l || hasBiconditional r
  | Negation e => hasBiconditional e
  | Atom _ => false

/-- A clause: a Python `set` of literal strings (`Clause.literals`). -/
abbrev Clause := Finset String

/-- `Clause.is_empty` of the source: `len(self.literals) == 0`. -/
def Clause.is_empty (c : Clause) : Bool := c.card == 0

/-- Code-point lexicographic comparison of character lists: exactly the
string order Python's `sorted()` uses on `str`. -/
def strLeChars : List Char → List Char → Bool
  | [], _ => true
  | _ :: _, [] => false
  | a :: as, b :: bs =>
    if a.toNat < b.toNat then true
    else if b.toNat < a.toNat then false
    else strLeChars as bs

/-- Python's string order as a relation on `String`. -/
def strLeP (s t : String) : Prop := strLeChars s.data t.data = true

instance : DecidableRel strLeP := fun _ _ => inferInstanceAs (Decidable (_ = true))

instance : IsTotal String strLeP :=
  ⟨by
    have h : ∀ a b : List Char, strLeChars a b = true ∨ strLeChars b a = true := by
      intro a
      induction a with
      | nil => intro b; left; rfl
      | cons x xs ih =>
        intro b
        cases b with
        | nil => right; rfl
        | cons y ys =>
          rcases Nat.lt_trichotomy x.toNat y.toNat with hxy | hxy | hxy
          · left; simp [strLeChars, hxy]
          · rcases ih ys with h | h
            · left; simp [strLeChars, hxy, Nat.lt_irrefl, h]
            · right; simp [strLeChars, hxy.symm ▸ Nat.lt_irrefl y.toNat, hxy, h]
          · right; simp [strLeChars, hxy]
    exact fun s t => h s.data t.data⟩

instance : IsTrans String strLeP :=
  ⟨by
    have h : ∀ a b c : List Char,
        strLeChars a b = true → strLeChars b c = true → strLeChars a c = true := by
      intro a
      induction a with
      | nil => intros; rfl
      | cons x xs ih =>
        intro b c hab hbc
        cases b with
        | nil => simp [strLeChars] at hab
        | cons y ys =>
          cases c with
          | nil => simp [strLeChars] at hbc
          | cons z zs =>
            rcases Nat.lt_trichotomy x.toNat y.toNat with hxy | hxy | hxy
            · rcases Nat.lt_trichotomy y.toNat z.toNat with hyz | hyz | hyz
              · simp [strLeChars, hxy.trans hyz]
              · simp [strLeChars, hyz ▸ hxy]
              · simp [strLeChars, Nat.lt_asymm hyz, hyz] at hbc
            · rcases Nat.lt_trichotomy y.toNat z.toNat with hyz | hyz | hyz
              · simp [strLeChars, hxy ▸ hyz]
              · have hxz : x.toNat = z.toNat := hxy.trans hyz
                simp [strLeChars, hxy, Nat.lt_irrefl, hxy ▸ Nat.lt_irrefl x.toNat] at hab
                simp [strLeChars, hyz, Nat.lt_irrefl, hyz ▸ Nat.lt_irrefl y.toNat] at hbc
                simp [strLeChars, hxz, Nat.lt_irrefl, hxz ▸ Nat.lt_irrefl x.toNat]
                exact ih ys zs hab hbc
              · simp [strLeChars, Nat.lt_asymm hyz, hyz] at hbc
            · simp [strLeChars, Nat.lt_asymm hxy, hxy] at hab
    exact fun s t u => h s.data t.data u.data⟩

instance : IsAntisymm String strLeP :=
  ⟨by
    have hchar : ∀ u v : Char, u.toNat = v.toNat → u = v := fun u v huv =>
      Char.ext (UInt32.ext huv)
    have h : ∀ a b : List Char, strLeChars a b = true → strLeChars b a = true → a = b := by
      intro a
      induction a with
      | nil =>
        intro b _ hba
        cases b with
        | nil => rfl
        | cons y ys => simp [strLeChars] at hba
      | cons x xs ih =>
        intro b hab hba
        cases b with
        | nil => simp [strLeChars] at hab
        | cons y ys =>
          rcases Nat.lt_trichotomy x.toNat y.toNat with hxy | hxy | hxy
          · simp [strLeChars, Nat.lt_asymm hxy, hxy] at hba
          · have hx : x = y := hchar _ _ hxy
            subst hx
            simp [strLeChars, Nat.lt_irrefl] at hab hba
            rw [ih ys hab hba]
          · simp [strLeChars, Nat.lt_asymm hxy, hxy] at hab
    intro s t hst hts
    exact String.ext (h s.data t.data hst hts)⟩

/-- `sorted(...)` on a Python set of strings: the elements of the finset in
code-point lexicographic order (well-defined on the underlying multiset
because sorted permutations agree). -/
def sortedLits (c : Clause) : List String :=
  Quot.liftOn c.val (fun l => l.insertionSort strLeP)
    (fun a b hab =>
      List.eq_of_perm_of_sorted
        ((List.perm_insertionSort strLeP a).trans
          (hab.trans (List.perm_insertionSort strLeP b).symm))
        (List.sorted_insertionSort strLeP a) (List.sorted_insertionSort strLeP b))

/-- `Clause.__str__`: the contradiction glyph for the empty clause, otherwise
the sorted literals joined by ` || `. -/
def clause_str (c : Clause) : String :=
  if c = ∅ then "□" else String.intercalate " || " (sortedLits c)

/-- `negate_literal`: strip a leading `~` (`literal[1:]`), otherwise prepend
one (`'~' + literal`). -/
def negate_literal (l : String) : String :=
  match l.data with
  | '~' :: rest => String.mk rest
  | _ => String.mk ('~' :: l.data)

/-- Inner literal collector of `extract_clauses_from_cnf`
(`collect_literals` inside `extract_literals_from_disjunction`): flatten
disjunctions, an atom contributes its symbol, a negated atom contributes
`~symbol`, and ANY other node silently contributes `str(e)` (the source
comment: "this shouldn't happen in proper CNF"). -/
def collect_literals : Expression → List String
  | Disjunction l r => collect_literals l ++ collect_literals r
  | Negation (Atom s) => ["~" ++ s]
  | Atom s => [s]
  | e => [strExpr e]

/-- `extract_literals_from_disjunction` is `collect_literals` started on an
empty accumulator. -/
def extract_literals_from_disjunction (e : Expression) : List String :=
  collect_literals e

/-- `extract_from_conjunction`: recurse through conjunctions; a
non-conjunction subtree becomes one clause from its literal list, added only
when the literal list is non-empty. -/
def extract_from_conjunction : Expression → List Clause
  | Conjunction l r => extract_from_conjunction l ++ extract_from_conjunction r
  | e =>
    let lits := extract_literals_from_disjunction e
    if lits = [] then [] else [lits.toFinset]

/-- `extract_clauses_from_cnf`: an `Atom`, `Negation` or `Disjunction` at the
top level is a single clause; anything else goes through
`extract_from_conjunction`. -/
def extract_clauses_from_cnf (e : Expression) : List Clause :=
  match e with
  | Atom _ | Negation _ | Disjunction _ _ =>
    let lits := extract_literals_from_disjunction e
    if lits = [] then [] else [lits.toFinset]
  | _ => extract_from_conjunction e

/-- `resolve`: for every literal of `clause1` whose complement is in
`clause2`, produce the resolvent `(clause1 - lit) ∪ (clause2 - ~lit)`.
The iteration over the Python set `clause1.literals` is modelled by iterating
its sorted list of elements. -/
def resolve (c1 c2 : Clause) : List Clause :=
  (sortedLits c1).filterMap fun l =>
    if negate_literal l ∈ c2 then some (c1.erase l ∪ c2.erase (negate_literal l)) else none

/-- A Horn rule of `knowledge_base.py`. -/
structure Rule where
  premises : List String
  conclusion : String
deriving DecidableEq, Repr

/-- The two knowledge-base variants: `KnowledgeBase` (facts + rules) and
`GeneralKnowledgeBase` (a list of sentences). -/
inductive KB
  | horn (facts : Finset String) (rules : List Rule)
  | general (sentences : List Expression)

/-- Adding a clause to the working clause set (`set.add`): no-op when already
present. -/
def insertClause (c : Clause) (cs : List Clause) : List Clause :=
  if c ∈ cs then cs else cs ++ [c]

/-- `convert_horn_kb_to_clauses`: each fact becomes a unit clause and each
rule `p1 & ... & pn => r` becomes `{~p1, ..., ~pn, r}`. -/
def convert_horn_kb_to_clauses (facts : Finset String) (rules : List Rule) : List Clause :=
  let fromFacts := (sortedLits facts).foldl (fun acc f => insertClause {f} acc) []
  rules.foldl
    (fun acc r => insertClause ((r.premises.map (fun p => "~" ++ p)) ++ [r.conclusion]).toFinset acc)
    fromFacts

/-- `convert_general_kb_to_clauses`: CNF-convert each sentence and collect the
extracted clauses into the set. -/
def convert_general_kb_to_clauses (sentences : List Expression) : List Clause :=
  sentences.foldl
    (fun acc s => (extract_clauses_from_cnf (convert_to_cnf s)).foldl (fun a c => insertClause c a) acc)
    []

/-- A derivation-trace line `Iteration {i}: Resolved {c1} and {c2} to get {r}`. -/
def stepMsg (it : Nat) (c1 c2 r : Clause) : String :=
  "Iteration " ++ toString it ++ ": Resolved " ++ clause_str c1 ++ " and " ++ clause_str c2 ++
    " to get " ++ clause_str r

/-- The final trace line of a saturation (fixpoint) exit. -/
def satMsg (it : Nat) : String :=
  "No new clauses generated after " ++ toString it ++ " iterations - cannot prove query"

/-- Processing the resolvents of one clause pair inside the saturation loop:
append the trace line, return early with `True` when the resolvent is empty,
otherwise add it to the new-clause set. -/
def addResolvents (it : Nat) (c1 c2 : Clause) :
    List Clause → List String → List Clause → Sum (List String) (List String × List Clause)
  | [], steps, newCs => Sum.inr (steps, newCs)
  | r :: rs, steps, newCs =>
    let steps' := steps ++ [stepMsg it c1 c2 r]
    if Clause.is_empty r then
      Sum.inl (steps' ++ ["Empty clause derived - proof complete!"])
    else
      addResolvents it c1 c2 rs steps' (if r ∈ newCs then newCs else newCs ++ [r])

/-- The two nested `for i / for j in range(i+1, ...)` loops: resolve every
unordered pair, threading the trace and the new-clause set, with the early
exit of `addResolvents`. -/
def resolveAllPairs (it : Nat) :
    List (Clause × Clause) → List String → List Clause → Sum (List String) (List String × List Clause)
  | [], steps, newCs => Sum.inr (steps, newCs)
  | (c1, c2) :: ps, steps, newCs =>
    match addResolvents it c1 c2 (resolve c1 c2) steps newCs with
    | Sum.inl finalSteps => Sum.inl finalSteps
    | Sum.inr (steps', newCs') => resolveAllPairs it ps steps' newCs'

/-- All unordered pairs `(clause_list[i], clause_list[j])` with `i < j`. -/
def allPairs : List Clause → List (Clause × Clause)
  | [] => []
  | c :: cs => cs.map (fun d => (c, d)) ++ allPairs cs

/-- The saturation loop of `resolution_theorem_proving`.  The first argument
is the remaining iteration budget (`max_iterations - iteration`); exhausting
it is exactly the `while` condition failing, which appends
`"Maximum iterations (1000) reached"` and returns `False`.  One loop body:
resolve all pairs (early `True` exit on an empty resolvent), return `False`
with the saturation message when no new clause was produced, otherwise merge
and, when the merged set exceeds 10000 clauses, return `False` with the
size-cap message. -/
def resolutionIter : Nat → List Clause → List String → Nat → Bool × List String
  | 0, _, steps, _ => (false, steps ++ ["Maximum iterations (1000) reached"])
  | fuel + 1, clauses, steps, iteration =>
    let it := iteration + 1
    match resolveAllPairs it (allPairs clauses) steps [] with
    | Sum.inl finalSteps => (true, finalSteps)
    | Sum.inr (steps', newCs) =>
      if newCs.all (fun c => c ∈ clauses) then
        (false, steps' ++ [satMsg it])
      else
        let clauses' := newCs.foldl (fun acc c => insertClause c acc) clauses
        if 10000 < clauses'.length then
          (false, steps' ++ ["Clause set too large - terminating"])
        else
          resolutionIter fuel clauses' steps' it

/-- The tail of one loop iteration after the new clauses have been merged:
the clause-set-size cap check followed by the next iteration. -/
def contLoop (fuel : Nat) (clauses' : List Clause) (steps : List String) (it : Nat) :
    Bool × List String :=
  if 10000 < clauses'.length then
    (false, steps ++ ["Clause set too large - terminating"])
  else
    resolutionIter fuel clauses' steps it

/-- `resolution_theorem_proving`: convert the KB to clauses (dispatching on
the KB variant, `hasattr(kb, 'sentences')`), add the negated query as the
unit clause `{~query}`, and saturate with the iteration budget 1000. -/
def resolution_theorem_proving (kb : KB) (query : String) : Bool × List String :=
  let clauses :=
    match kb with
    | KB.general sentences => convert_general_kb_to_clauses sentences
    | KB.horn facts rules => convert_horn_kb_to_clauses facts rules
  let clauses := insertClause ({"~" ++ query} : Clause) clauses
  resolutionIter 1000 clauses [] 0

/-- `extract_atoms_from_expr` of `truth_table.py`. -/
def extract_atoms_from_expr : Expression → Finset String
  | Atom s => {s}
  | Negation e => extract_atoms_from_expr e
  | Conjunction l r => extract_atoms_from_expr l ∪ extract_atoms_from_expr r
  | Disjunction l r => extract_atoms_from_expr l ∪ extract_atoms_from_expr r
  | Implication l r => extract_atoms_from_expr l ∪ extract_atoms_from_expr r
  | Biconditional l r => extract_atoms_from_expr l ∪ extract_atoms_from_expr r

/-- A truth assignment (`model` dict); `model.get(s, False)` semantics. -/
def lookupModel (model : List (String × Bool)) (s : String) : Bool :=
  match model.find? (fun p => p.1 = s) with
  | some p => p.2
  | none => false

/-- `evaluate_expression` of `truth_table.py`. -/
def evaluate_expression : Expression → List (String × Bool) → Bool
  | Atom s, m => lookupModel m s
  | Negation e, m => ! evaluate_expression e m
  | Conjunction l r, m => evaluate_expression l m && evaluate_expression r m
  | Disjunction l r, m => evaluate_expression l m || evaluate_expression r m
  | Implication l r, m => (! evaluate_expression l m) || evaluate_expression r m
  | Biconditional l r, m => evaluate_expression l m == evaluate_expression r m

/-- `itertools.product([True, False], repeat=n)`: all length-`n` boolean
tuples, the first coordinate varying slowest and `True` first. -/
def boolTuples : Nat → List (List Bool)
  | 0 => [[]]
  | n + 1 => [true, false].flatMap fun b => (boolTuples n).map fun t => b :: t

/-- `general_truth_table` with a string query (the ASK line is a plain
symbol): collect the atoms of all sentences plus the query, enumerate models
over the sorted atom list (`None` when more than 25 atoms, modelled as
`none`), keep the models satisfying every sentence, and report entailment as
"query true in all valid models" together with the valid-model count (an
unsatisfiable KB yields `(True, 0)`). -/
def general_truth_table (sentences : List Expression) (query : String) : Option (Bool × Nat) :=
  let all_atoms := sentences.foldl (fun acc s => acc ∪ extract_atoms_from_expr s) ∅ ∪ {query}
  let atoms := sortedLits all_atoms
  if 25 < atoms.length then none
  else
    let models := (boolTuples atoms.length).map fun vs => atoms.zip vs
    let valid := models.filter fun m => sentences.all fun s => evaluate_expression s m
    if valid = [] then some (true, 0)
    else
      let qtrue := (valid.filter fun m => lookupModel m query).length
      some (qtrue == valid.length, valid.length)

/-- `satisfies_horn_kb`: every fact true and every rule with all premises
true has a true conclusion. -/
def satisfies_horn_kb (facts : Finset String) (rules : List Rule)
    (m : List (String × Bool)) : Bool :=
  (sortedLits facts).all (fun f => lookupModel m f) &&
    rules.all fun r =>
      ! (r.premises.all (fun p => lookupModel m p) && ! lookupModel m r.conclusion)

/-- `horn_truth_table`: symbols are the facts, rule premises/conclusions and
the query; otherwise the same enumeration as the general case. -/
def horn_truth_table (facts : Finset String) (rules : List Rule) (query : String) :
    Option (Bool × Nat) :=
  let symbols :=
    rules.foldl (fun acc r => acc ∪ r.premises.toFinset ∪ {r.conclusion}) facts ∪ {query}
  let atoms := sortedLits symbols
  if 25 < atoms.length then none
  else
    let models := (boolTuples atoms.length).map fun vs => atoms.zip vs
    let valid := models.filter fun m => satisfies_horn_kb facts rules m
    if valid = [] then some (true, 0)
    else
      let qtrue := (valid.filter fun m => lookupModel m query).length
      some (qtrue == valid.length, valid.length)

/-- `truth_table`: dispatch on the KB variant
(`isinstance(kb, GeneralKnowledgeBase)`). -/
def truth_table (kb : KB) (query : String) : Option (Bool × Nat) :=
  match kb with
  | KB.general sentences => general_truth_table sentences query
  | KB.horn facts rules => horn_truth_table facts rules query

/-- Token kinds of `tokenize` in `parser.py` (the matched text is kept only
for atoms, the sole place it is consumed). -/
inductive Tok
  | atomT (s : String)
  | negT
  | conjT
  | disjT
  | impT
  | bicT
  | lparT
  | rparT
deriving DecidableEq, Repr

open Tok

/-- The whitespace class `\s` of the tokenizer's skip pattern (ASCII part:
space, tab, newline, vertical tab, form feed, carriage return). -/
def isPySpace (c : Char) : Bool :=
  c.toNat == 32 || c.toNat == 9 || c.toNat == 10 || c.toNat == 11 || c.toNat == 12 || c.toNat == 13

/-- The character class `[a-z]` of the ATOM pattern. -/
def isLowerAlpha (c : Char) : Bool := 97 ≤ c.toNat && c.toNat ≤ 122

/-- The character class `[0-9]` of the ATOM pattern. -/
def isDigitC (c : Char) : Bool := 48 ≤ c.toNat && c.toNat ≤ 57

/-- Split off the maximal leading digit run (the greedy `[0-9]*` of the ATOM
pattern). -/
def spanDigits : List Char → List Char × List Char
  | [] => ([], [])
  | c :: cs =>
    if isDigitC c then
      let p := spanDigits cs
      (c :: p.1, p.2)
    else ([], c :: cs)

/-- `tokenize` of `parser.py`: at each position try, in order, whitespace
(skipped), `<=>`, `=>`, `||`, `&`, `~`, `(`, `)`, then `[a-z][0-9]*`; when no
pattern matches the source raises `ValueError` (here: `none`).  The branches
test the character code (60 `<`, 61 `=`, 62 `>`, 124 `|`, 38 `&`, 126 `~`,
40 `(`, 41 `)`); the multi-character operators require their continuation and
otherwise no pattern matches. -/
def tokenizeF : Nat → List Char → Option (List Tok)
  | 0, _ => none
  | _ + 1, [] => some []
  | f + 1, c :: cs =>
    if isPySpace c then tokenizeF f cs
    else if c.toNat == 60 then
      match cs with
      | d :: e :: cs' =>
        if d.toNat == 61 && e.toNat == 62 then (tokenizeF f cs').map (bicT :: ·) else none
      | _ => none
    else if c.toNat == 61 then
      match cs with
      | d :: cs' => if d.toNat == 62 then (tokenizeF f cs').map (impT :: ·) else none
      | _ => none
    else if c.toNat == 124 then
      match cs with
      | d :: cs' => if d.toNat == 124 then (tokenizeF f cs').map (disjT :: ·) else none
      | _ => none
    else if c.toNat == 38 then (tokenizeF f cs).map (conjT :: ·)
    else if c.toNat == 126 then (tokenizeF f cs).map (negT :: ·)
    else if c.toNat == 40 then (tokenizeF f cs).map (lparT :: ·)
    else if c.toNat == 41 then (tokenizeF f cs).map (rparT :: ·)
    else if isLowerAlpha c then
      (tokenizeF f (spanDigits cs).2).map (atomT (String.mk (c :: (spanDigits cs).1)) :: ·)
    else none

/-- The tokenizer entry point.  Every step of `tokenizeF` consumes at least
one character, so the budget `length + 1` is never exhausted
(`tokenizeF_fuel_irrelevant` below); the budget only makes the recursion
structural. -/
def tokenize (cs : List Char) : Option (List Tok) := tokenizeF (cs.length + 1) cs

/-!
`ExpressionParser` as fuelled recursive descent.  Every recursive call
spends one unit of fuel; with the generous initial budget supplied by
`parseTokens` the fuel never runs out (the source parser terminates because
every recursion consumes at least one token), so fuel exhaustion never
occurs for the entry points used below.  `none` models a raised
`ValueError`.
-/
mutual

/-- `parse_primary`: an atom, or a parenthesized expression (recursing into
the lowest-precedence rule and requiring the closing parenthesis); anything
else, including exhausted input, is an error. -/
def parse_primary : Nat → List Tok → Option (Expression × List Tok)
  | 0, _ => none
  | _ + 1, atomT s :: ts => some (Atom s, ts)
  | f + 1, lparT :: ts =>
    match parse_biconditional f ts with
    | some (e, rparT :: ts') => some (e, ts')
    | _ => none
  | _ + 1, _ => none

/-- `parse_negation`: right-recursive `~`, else primary. -/
def parse_negation : Nat → List Tok → Option (Expression × List Tok)
  | 0, _ => none
  | f + 1, negT :: ts =>
    match parse_negation f ts with
    | some (e, ts') => some (Negation e, ts')
    | none => none
  | f + 1, ts => parse_primary f ts

/-- `parse_conjunction`: a negation level followed by the `&` fold. -/
def parse_conjunction : Nat → List Tok → Option (Expression × List Tok)
  | 0, _ => none
  | f + 1, ts =>
    match parse_negation f ts with
    | some (e, ts') => conj_loop f e ts'
    | none => none

/-- The `while self.peek() == CONJUNCTION` loop: left-associative fold. -/
def conj_loop : Nat → Expression → List Tok → Option (Expression × List Tok)
  | 0, _, _ => none
  | f + 1, acc, conjT :: ts =>
    match parse_negation f ts with
    | some (r, ts') => conj_loop f (Conjunction acc r) ts'
    | none => none
  | _ + 1, acc, ts => some (acc, ts)

/-- `parse_disjunction`: a conjunction level followed by the `||` fold. -/
def parse_disjunction : Nat → List Tok → Option (Expression × List Tok)
  | 0, _ => none
  | f + 1, ts =>
    match parse_conjunction f ts with
    | some (e, ts') => disj_loop f e ts'
    | none => none

/-- The `while self.peek() == DISJUNCTION` loop. -/
def disj_loop : Nat → Expression → List Tok → Option (Expression × List Tok)
  | 0, _, _ => none
  | f + 1, acc, disjT :: ts =>
    match parse_conjunction f ts with
    | some (r, ts') => disj_loop f (Disjunction acc r) ts'
    | none => none
  | _ + 1, acc, ts => some (acc, ts)

/-- `parse_implication`: a disjunction level followed by the `=>` fold. -/
def parse_implication : Nat → List Tok → Option (Expression × List Tok)
  | 0, _ => none
  | f + 1, ts =>
    match parse_disjunction f ts with
    | some (e, ts') => imp_loop f e ts'
    | none => none

/-- The `while self.peek() == IMPLICATION` loop. -/
def imp_loop : Nat → Expression → List Tok → Option (Expression × List Tok)
  | 0, _, _ => none
  | f + 1, acc, impT :: ts =>
    match parse_disjunction f ts with
    | some (r, ts') => imp_loop f (Implication acc r) ts'
    | none => none
  | _ + 1, acc, ts => some (acc, ts)

/-- `parse_biconditional` (lowest precedence): an implication level followed
by the `<=>` fold. -/
def parse_biconditional : Nat → List Tok → Option (Expression × List Tok)
  | 0, _ => none
  | f + 1, ts =>
    match parse_implication f ts with
    | some (e, ts') => bic_loop f e ts'
    | none => none

/-- The `while self.peek() == BICONDITIONAL` loop. -/
def bic_loop : Nat → Expression → List Tok → Option (Expression × List Tok)
  | 0, _, _ => none
  | f + 1, acc, bicT :: ts =>
    match parse_implication f ts with
    | some (r, ts') => bic_loop f (Biconditional acc r) ts'
    | none => none
  | _ + 1, acc, ts => some (acc, ts)

end

/-- `ExpressionParser(tokens).parse()`: parse the lowest-precedence rule and
require every token to be consumed (trailing tokens raise).  The fuel
`8 * length + 8` strictly dominates the recursion depth of the source parser
on any input. -/
def parseTokens (ts : List Tok) : Option Expression :=
  match parse_biconditional (8 * ts.length + 8) ts with
  | some (e, []) => some e
  | _ => none

/-- Tokenize a line and run the parser on the result (the TELL-line handling
of `parse_general_file`). -/
def parseText (s : String) : Option Expression :=
  match tokenize s.data with
  | some ts => parseTokens ts
  | none => none

/-- The identifier shape `[a-z][0-9]*` of the tokenizer's ATOM pattern. -/
def validIdent (s : String) : Bool :=
  match s.data with
  | [] => false
  | c :: cs => isLowerAlpha c && cs.all isDigitC

/-- A proper literal string: an atom identifier, or `~` followed by one. -/
def isLiteralString (s : String) : Bool :=
  validIdent s ||
    (match s.data with
     | '~' :: rest => validIdent (String.mk rest)
     | _ => false)

/-- The node shapes that `collect_literals` cannot translate to a literal:
everything other than a disjunction, an atom, or a negated atom. -/
def badClauseNode : Expression → Bool
  | Disjunction _ _ => false
  | Atom _ => false
  | Negation (Atom _) => false
  | _ => true

/-- Is the node a conjunction? -/
def isConjB : Expression → Bool
  | Conjunction _ _ => true
  | _ => false

/-- Normal form of the fourth CNF pass: no disjunction has a conjunction as
an immediate child in the region the pass traverses (it does not descend
into `Implication`/`Biconditional` nodes, which it returns unchanged). -/
def distNF : Expression → Bool
  | Disjunction l r => distNF l && distNF r && ! isConjB l && ! isConjB r
  | Conjunction l r => distNF l && distNF r
  | Negation e => distNF e
  | _ => true

/-- The token sequence produced by tokenizing `str(e)` for a well-formed
expression. -/
def renderToks : Expression → List Tok
  | Atom s => [atomT s]
  | Negation e => negT :: renderToks e
  | Conjunction l r => lparT :: (renderToks l ++ conjT :: (renderToks r ++ [rparT]))
  | Disjunction l r => lparT :: (renderToks l ++ disjT :: (renderToks r ++ [rparT]))
  | Implication l r => lparT :: (renderToks l ++ impT :: (renderToks r ++ [rparT]))
  | Biconditional l r => lparT :: (renderToks l ++ bicT :: (renderToks r ++ [rparT]))

/-- Well-formedness: every atom symbol has the tokenizer's identifier shape
(true of every expression the parser can produce). -/
def wfExpr : Expression → Bool
  | Atom s => validIdent s
  | Negation e => wfExpr e
  | Conjunction l r => wfExpr l && wfExpr r
  | Disjunction l r => wfExpr l && wfExpr r
  | Implication l r => wfExpr l && wfExpr r
  | Biconditional l r => wfExpr l && wfExpr r

/-- A fuel budget sufficient to parse the rendering of `e` (each recursive
parser call consumes one unit). -/
def fuelB : Expression → Nat
  | Atom _ => 2
  | Negation e => fuelB e + 1
  | Conjunction l r => fuelB l + fuelB r + 12
  | Disjunction l r => fuelB l + fuelB r + 12
  | Implication l r => fuelB l + fuelB r + 12
  | Biconditional l r => fuelB l + fuelB r + 12

/-- The continuation after a rendered atom never starts with a digit (it is
empty or starts with a space or closing parenthesis), so the greedy digit
run of the ATOM pattern stops exactly at the atom's end. -/
def noDigitHead : List Char → Bool
  | [] => true
  | c :: _ => ! isDigitC c

/-- Every atom token in the list carries a valid identifier (true of every
tokenizer output). -/
def toksWF (ts : List Tok) : Bool :=
  ts.all fun t =>
    match t with
    | atomT s => validIdent s
    | _ => true

/-!
## Faithfulness of the distribution pass

`distOr`/`distOrR` were introduced to make the fourth pass structurally
recursive; the following lemmas culminate in
`distribute_or_over_and_eq_source`, which shows that
`distribute_or_over_and` satisfies the literal recursion equations of the
source's `distribute_or_over_and` (normalize both children, then the
`isinstance(left, Conjunction)` / `elif isinstance(right, Conjunction)` /
`else` cascade with full re-normalization of the rebuilt disjunctions).
-/

theorem distOr_conj_left (a b r : Expression) :
    distOr (Conjunction a b) r = Conjunction (distOr a r) (distOr b r) := rfl

theorem distOrR_conj (l a b : Expression) :
    distOrR l (Conjunction a b) = Conjunction (distOrR l a) (distOrR l b) := rfl

theorem distOr_eq_distOrR (l r : Expression) (h : isConjB l = false) :
    distOr l r = distOrR l r := by
  cases l <;> first
    | rfl
    | simp [isConjB] at h

theorem distOrR_not_conj (l r : Expression) (h : isConjB r = false) :
    distOrR l r = Disjunction l r := by
  cases r <;> first
    | rfl
    | simp [isConjB] at h

theorem distNF_distOrR (l r : Expression) (hl : distNF l = true) (hlc : isConjB l = false)
    (hr : distNF r = true) : distNF (distOrR l r) = true := by
  have hfin : ∀ r₀ : Expression, isConjB r₀ = false → distNF r₀ = true →
      distNF (distOrR l r₀) = true := by
    intro r₀ hc hr₀
    rw [distOrR_not_conj l r₀ hc]
    simp only [distNF, Bool.and_eq_true, Bool.not_eq_true']
    exact ⟨⟨⟨hl, hr₀⟩, hlc⟩, hc⟩
  induction r with
  | Conjunction a b iha ihb =>
    rw [distOrR_conj]
    simp only [distNF, Bool.and_eq_true] at hr ⊢
    exact ⟨iha hr.1, ihb hr.2⟩
  | Atom s => exact hfin _ rfl hr
  | Negation e _ => exact hfin _ rfl hr
  | Disjunction a b _ _ => exact hfin _ rfl hr
  | Implication a b _ _ => exact hfin _ rfl hr
  | Biconditional a b _ _ => exact hfin _ rfl hr

theorem distNF_distOr (l r : Expression) (hl : distNF l = true) (hr : distNF r = true) :
    distNF (distOr l r) = true := by
  induction l with
  | Conjunction a b iha ihb =>
    rw [distOr_conj_left]
    simp only [distNF, Bool.and_eq_true] at hl ⊢
    exact ⟨iha hl.1, ihb hl.2⟩
  | Atom s => exact distNF_distOrR _ _ hl rfl hr
  | Negation e _ => exact distNF_distOrR _ _ hl rfl hr
  | Disjunction a b _ _ => exact distNF_distOrR _ _ hl rfl hr
  | Implication a b _ _ => exact distNF_distOrR _ _ hl rfl hr
  | Biconditional a b _ _ => exact distNF_distOrR _ _ hl rfl hr

theorem distNF_distribute (e : Expression) :
    distNF (distribute_or_over_and e) = true := by
  induction e with
  | Atom s => rfl
  | Negation e ih => simpa [distribute_or_over_and, distNF] using ih
  | Conjunction l r ihl ihr => simp [distribute_or_over_and, distNF, ihl, ihr]
  | Disjunction l r ihl ihr =>
    simpa [distribute_or_over_and] using distNF_distOr _ _ ihl ihr
  | Implication l r _ _ => rfl
  | Biconditional l r _ _ => rfl

theorem distribute_fixed (e : Expression) (h : distNF e = true) :
    distribute_or_over_and e = e := by
  induction e with
  | Atom s => rfl
  | Negation e ih =>
    simp only [distNF] at h
    simp [distribute_or_over_and, ih h]
  | Conjunction l r ihl ihr =>
    simp only [distNF, Bool.and_eq_true] at h
    simp [distribute_or_over_and, ihl h.1, ihr h.2]
  | Disjunction l r ihl ihr =>
    simp only [distNF, Bool.and_eq_true, Bool.not_eq_true'] at h
    obtain ⟨⟨⟨hl, hr⟩, hlc⟩, hrc⟩ := h
    simp only [distribute_or_over_and, ihl hl, ihr hr]
    rw [distOr_eq_distOrR _ _ hlc, distOrR_not_conj _ _ hrc]
  | Implication l r _ _ => rfl
  | Biconditional l r _ _ => rfl

/-- `distribute_or_over_and` satisfies the source's recursion equations on a
disjunction: normalize `left` and `right`, and when either normalized side
is a conjunction, distribute and recursively renormalize the rebuilt
disjunctions (left side checked first, exactly as the `if`/`elif` of the
source). -/
theorem distribute_or_over_and_eq_source (l r : Expression) :
    distribute_or_over_and (Disjunction l r) =
      match distribute_or_over_and l, distribute_or_over_and r with
      | Conjunction a b, right =>
          Conjunction (distribute_or_over_and (Disjunction a right))
            (distribute_or_over_and (Disjunction b right))
      | left, Conjunction a b =>
          Conjunction (distribute_or_over_and (Disjunction left a))
            (distribute_or_over_and (Disjunction left b))
      | left, right => Disjunction left right := by
  have key : ∀ L R : Expression, distNF L = true → distNF R = true →
      distOr L R =
        match L, R with
        | Conjunction a b, right =>
            Conjunction (distOr (distribute_or_over_and a) (distribute_or_over_and right))
              (distOr (distribute_or_over_and b) (distribute_or_over_and right))
        | left, Conjunction a b =>
            Conjunction (distOr (distribute_or_over_and left) (distribute_or_over_and a))
              (distOr (distribute_or_over_and left) (distribute_or_over_and b))
        | left, right => Disjunction left right := by
    have hconjL : ∀ a b R : Expression, distNF (Conjunction a b) = true → distNF R = true →
        distOr (Conjunction a b) R =
          Conjunction (distOr (distribute_or_over_and a) (distribute_or_over_and R))
            (distOr (distribute_or_over_and b) (distribute_or_over_and R)) := by
      intro a b R hL hR
      simp only [distNF, Bool.and_eq_true] at hL
      rw [distribute_fixed a hL.1, distribute_fixed b hL.2, distribute_fixed R hR]
      rfl
    have hconjR : ∀ L a b : Expression, isConjB L = false → distNF L = true →
        distNF (Conjunction a b) = true →
        distOr L (Conjunction a b) =
          Conjunction (distOr (distribute_or_over_and L) (distribute_or_over_and a))
            (distOr (distribute_or_over_and L) (distribute_or_over_and b)) := by
      intro L a b hc hL hR
      simp only [distNF, Bool.and_eq_true] at hR
      rw [distribute_fixed L hL, distribute_fixed a hR.1, distribute_fixed b hR.2]
      rw [distOr_eq_distOrR L _ hc, distOrR_conj, distOr_eq_distOrR L a hc,
        distOr_eq_distOrR L b hc]
    have hplain : ∀ L R : Expression, isConjB L = false → isConjB R = false →
        distOr L R = Disjunction L R := by
      intro L R hcl hcr
      rw [distOr_eq_distOrR L R hcl, distOrR_not_conj L R hcr]
    intro L R hL hR
    cases L <;> cases R <;>
      first
        | exact hconjL _ _ _ hL hR
        | exact hconjR _ _ _ rfl hL hR
        | exact hplain _ _ rfl rfl
  exact key (distribute_or_over_and l) (distribute_or_over_and r)
    (distNF_distribute l) (distNF_distribute r)

/-!
## Clause extraction
-/

theorem collect_literals_ne_nil (e : Expression) : collect_literals e ≠ [] := by
  induction e with
  | Atom s => simp [collect_literals]
  | Negation e _ => cases e <;> simp [collect_literals]
  | Conjunction l r _ _ => simp [collect_literals]
  | Disjunction l r ihl ihr =>
    simp only [collect_literals, ne_eq, List.append_eq_nil]
    exact fun h => ihl h.1
  | Implication l r _ _ => simp [collect_literals]
  | Biconditional l r _ _ => simp [collect_literals]

theorem lits_toFinset_not_empty (lits : List String) (h : lits ≠ []) :
    Clause.is_empty lits.toFinset = false := by
  cases lits with
  | nil => exact absurd rfl h
  | cons a l =>
    simp only [Clause.is_empty, beq_eq_false_iff_ne, ne_eq]
    exact Finset.card_ne_zero_of_mem (show a ∈ (a :: l).toFinset by simp)

theorem single_clause_all (e : Expression) :
    ((if extract_literals_from_disjunction e = [] then ([] : List Clause)
       else [(extract_literals_from_disjunction e).toFinset]).all
      fun c => ! Clause.is_empty c) = true := by
  have hne : extract_literals_from_disjunction e ≠ [] := collect_literals_ne_nil e
  rw [if_neg hne]
  simp [lits_toFinset_not_empty _ hne]

theorem extract_from_conjunction_all_nonempty (e : Expression) :
    ((extract_from_conjunction e).all fun c => ! Clause.is_empty c) = true := by
  induction e with
  | Conjunction l r ihl ihr =>
    simp only [extract_from_conjunction, List.all_append, Bool.and_eq_true]
    exact ⟨ihl, ihr⟩
  | Atom s => exact single_clause_all (Atom s)
  | Negation x _ => exact single_clause_all (Negation x)
  | Disjunction l r _ _ => exact single_clause_all (Disjunction l r)
  | Implication l r _ _ => exact single_clause_all (Implication l r)
  | Biconditional l r _ _ => exact single_clause_all (Biconditional l r)

/-- C10: `extract_clauses_from_cnf` never returns the empty clause — each
extracted literal list is non-empty (every leaf of `collect_literals`
contributes a string) and empty literal lists are filtered by the
`if literals:` guards, so every clause in the result has a non-empty literal
set; within a proof attempt an empty clause can therefore only arise as a
resolvent of `resolve`. -/
theorem extract_clauses_from_cnf_no_empty_clause (e : Expression) :
    ((extract_clauses_from_cnf e).all fun c => ! Clause.is_empty c) = true := by
  cases e with
  | Atom s => exact single_clause_all (Atom s)
  | Negation x => exact single_clause_all (Negation x)
  | Disjunction l r => exact single_clause_all (Disjunction l r)
  | Conjunction l r => exact extract_from_conjunction_all_nonempty _
  | Implication l r => exact extract_from_conjunction_all_nonempty _
  | Biconditional l r => exact extract_from_conjunction_all_nonempty _

/-!
## Resolution
-/

theorem sortedLits_mem (c : Clause) (l : String) : l ∈ sortedLits c ↔ l ∈ c := by
  rcases c with ⟨m, hm⟩
  revert hm
  induction m using Quotient.inductionOn with
  | h lst =>
    intro hm
    show l ∈ lst.insertionSort strLeP ↔ _
    rw [(List.perm_insertionSort strLeP lst).mem_iff]
    simp [Finset.mem_mk]

/-- C7: `resolve` produces exactly the resolvents of the complementary
pairs: a clause `r` is returned iff there is a literal `l` of `clause1`
whose complement lies in `clause2` and `r = (clause1 - l) ∪ (clause2 - ~l)`
(a set union, so duplicate literals collapse); one resolvent per such
literal, not just the first. -/
theorem resolve_characterization (c1 c2 r : Clause) :
    r ∈ resolve c1 c2 ↔
      ∃ l, l ∈ c1 ∧ negate_literal l ∈ c2 ∧
        r = c1.erase l ∪ c2.erase (negate_literal l) := by
  constructor
  · intro h
    simp only [resolve, List.mem_filterMap] at h
    obtain ⟨l, hl, hf⟩ := h
    by_cases hneg : negate_literal l ∈ c2
    · simp only [if_pos hneg, Option.some.injEq] at hf
      exact ⟨l, (sortedLits_mem c1 l).mp hl, hneg, hf.symm⟩
    · simp [if_neg hneg] at hf
  · rintro ⟨l, hl, hneg, rfl⟩
    simp only [resolve, List.mem_filterMap]
    exact ⟨l, (sortedLits_mem c1 l).mpr hl, by simp [if_pos hneg]⟩

/-!
## Claim theorems: CNF conversion defects and engine outcomes
-/

/-- C3: the first CNF pass does NOT recurse into the children of a
`Biconditional` it has just rewritten, so a nested biconditional survives:
on `(a <=> b) <=> c` the pass returns
`((a <=> b) => c) & (c => (a <=> b))`, which still contains a
`Biconditional` node, contradicting the claim that the output never does. -/
theorem eliminate_biconditionals_misses_nested :
    eliminate_biconditionals (Biconditional (Biconditional (Atom "a") (Atom "b")) (Atom "c")) =
      Conjunction (Implication (Biconditional (Atom "a") (Atom "b")) (Atom "c"))
        (Implication (Atom "c") (Biconditional (Atom "a") (Atom "b"))) ∧
    hasBiconditional
      (eliminate_biconditionals
        (Biconditional (Biconditional (Atom "a") (Atom "b")) (Atom "c"))) = true :=
  ⟨rfl, rfl⟩

/-- C1: on the expression `(a => a) => b` the CNF converter leaves the inner
implication untouched (the implication pass does not recurse into the
operands of a rewritten implication), and clause extraction then emits the
stringified subtree `"~(a => a)"` as a literal — not an atom identifier nor
`~` + identifier, so the claimed CNF shape is violated by the code. -/
theorem cnf_shape_violated_on_nested_implication :
    extract_clauses_from_cnf
        (convert_to_cnf (Implication (Implication (Atom "a") (Atom "a")) (Atom "b"))) =
      [({"~(a => a)", "b"} : Clause)] ∧
    isLiteralString "~(a => a)" = false := by
  constructor
  · decide
  · decide

/-- C2: the resolution engine and the truth table disagree on the general
knowledge base with the single sentence `(a => a) => b` (2 atoms, atomic
query `b`): the sentence is logically equivalent to `b`, so the truth table
answers entailed (`(True, 2)` — 2 valid models), but the CNF defect makes
the engine work with the garbage literal `"~(a => a)"` and it saturates
without deriving the empty clause, answering `False`. -/
theorem resolution_truth_table_disagreement :
    (resolution_theorem_proving
        (KB.general [Implication (Implication (Atom "a") (Atom "a")) (Atom "b")]) "b").1 = false ∧
    truth_table (KB.general [Implication (Implication (Atom "a") (Atom "a")) (Atom "b")]) "b" =
      some (true, 2) := by
  constructor
  · decide
  · decide

/-- C4 counterexample: on the non-CNF subtree `a => b` the clause extractor
raises no error: it returns an ordinary result whose only literal is the
stringified subtree `"(a => b)"`, i.e. it silently coerces instead of
surfacing a defect. -/
theorem extractor_stringifies_nonliteral :
    extract_clauses_from_cnf (Implication (Atom "a") (Atom "b")) =
      [({"(a => b)"} : Clause)] := by
  decide

/-- C4 amended: for every subtree that is neither a disjunction, nor an
atom, nor a negated atom, the literal extractor silently appends `str(e)`
as a literal (and raises nothing). -/
theorem extractor_coerces_bad_nodes (e : Expression) (h : badClauseNode e = true) :
    extract_literals_from_disjunction e = [strExpr e] := by
  cases e with
  | Atom s => simp [badClauseNode] at h
  | Disjunction l r => simp [badClauseNode] at h
  | Negation x =>
    cases x with
    | Atom s => simp [badClauseNode] at h
    | Negation y => rfl
    | Conjunction a b => rfl
    | Disjunction a b => rfl
    | Implication a b => rfl
    | Biconditional a b => rfl
  | Conjunction l r => rfl
  | Implication l r => rfl
  | Biconditional l r => rfl

theorem extractor_coerces_bad_nodes_witness :
    extract_literals_from_disjunction (Implication (Atom "a") (Atom "b")) =
      [strExpr (Implication (Atom "a") (Atom "b"))] :=
  extractor_coerces_bad_nodes (Implication (Atom "a") (Atom "b")) (by decide)

/-- C5 counterexample: the iteration-cap exit of the saturation loop (the
`while` guard failing after the budget is spent) and a genuine
saturation-to-fixpoint run return the SAME boolean verdict `False` — the
bounded-out abort is not distinguished from saturation in the boolean
result. -/
theorem capped_and_saturated_same_boolean :
    (resolutionIter 0 [({"~c"} : Clause)] [] 1000).1 = false ∧
    (resolution_theorem_proving (KB.horn (∅ : Finset String) []) "c").1 = false ∧
    (resolutionIter 0 [({"~c"} : Clause)] [] 1000).1 =
      (resolution_theorem_proving (KB.horn (∅ : Finset String) []) "c").1 := by
  refine ⟨by decide, by decide, by decide⟩

/-- C5 amended: the engine's only verdict is a two-valued boolean — the
saturation exit, the iteration-cap exit and the size-cap exit all return
`False`, and the three failure modes are distinguished only by the final
derivation-trace message, not by the verdict. -/
theorem failure_exits_collapse_to_false :
    (∀ (cs : List Clause) (steps : List String) (it : Nat),
      resolutionIter 0 cs steps it = (false, steps ++ ["Maximum iterations (1000) reached"])) ∧
    (∀ (fuel : Nat) (cs : List Clause) (steps : List String) (it : Nat),
      10000 < cs.length →
      contLoop fuel cs steps it = (false, steps ++ ["Clause set too large - terminating"])) ∧
    (∀ (fuel : Nat) (cs : List Clause) (steps s2 : List String) (newCs : List Clause) (it : Nat),
      resolveAllPairs (it + 1) (allPairs cs) steps [] = Sum.inr (s2, newCs) →
      (newCs.all fun c => c ∈ cs) = true →
      resolutionIter (fuel + 1) cs steps it = (false, s2 ++ [satMsg (it + 1)])) := by
  refine ⟨fun cs steps it => rfl, ?_, ?_⟩
  · intro fuel cs steps it h
    simp [contLoop, h]
  · intro fuel cs steps s2 newCs it h1 h2
    simp [resolutionIter, h1, h2]

theorem failure_exits_collapse_to_false_witness :
    resolutionIter 0 [({"a"} : Clause)] [] 0 =
      (false, [] ++ ["Maximum iterations (1000) reached"]) ∧
    contLoop 5 (List.replicate 10001 (∅ : Clause)) [] 0 =
      (false, [] ++ ["Clause set too large - terminating"]) ∧
    resolutionIter 1 [({"a"} : Clause)] [] 0 = (false, [] ++ [satMsg 1]) := by
  refine ⟨failure_exits_collapse_to_false.1 [({"a"} : Clause)] [] 0,
    failure_exits_collapse_to_false.2.1 5 (List.replicate 10001 (∅ : Clause)) [] 0
      (by rw [List.length_replicate]; omega),
    failure_exits_collapse_to_false.2.2 1 [({"a"} : Clause)] [] [] [] 0 (by decide) (by decide)⟩

/-!
## Tokenizer lemmas
-/

theorem spanDigits_snd_length_le (cs : List Char) : (spanDigits cs).2.length ≤ cs.length := by
  induction cs with
  | nil => simp [spanDigits]
  | cons d ds ih =>
    simp only [spanDigits]
    split
    · simpa using Nat.le_succ_of_le ih
    · simp

theorem spanDigits_append (ds rest : List Char) (hds : ∀ d ∈ ds, isDigitC d = true)
    (hrest : noDigitHead rest = true) : spanDigits (ds ++ rest) = (ds, rest) := by
  induction ds with
  | nil =>
    cases rest with
    | nil => rfl
    | cons c cs =>
      simp only [noDigitHead, Bool.not_eq_true'] at hrest
      simp [spanDigits, hrest]
  | cons d ds ih =>
    have hd : isDigitC d = true := hds d (by simp)
    have hds' : ∀ x ∈ ds, isDigitC x = true := fun x hx => hds x (by simp [hx])
    simp [spanDigits, hd, ih hds']

theorem tokenizeF_fuel_irrelevant :
    ∀ (f g : Nat) (cs : List Char), cs.length < f → cs.length < g →
      tokenizeF f cs = tokenizeF g cs := by
  intro f
  induction f with
  | zero => intro g cs h _; exact absurd h (Nat.not_lt_zero _)
  | succ f ih =>
    intro g cs hf hg
    match g, hg with
    | g + 1, hg =>
      cases cs with
      | nil => rfl
      | cons c cs =>
        have hlf : cs.length < f := by
          have : cs.length + 1 < f + 1 := by simpa using hf
          omega
        have hlg : cs.length < g := by
          have : cs.length + 1 < g + 1 := by simpa using hg
          omega
        simp only [tokenizeF]
        by_cases h1 : isPySpace c = true
        · rw [if_pos h1, if_pos h1]
          exact ih g cs hlf hlg
        · rw [if_neg h1, if_neg h1]
          by_cases h2 : (c.toNat == 60) = true
          · rw [if_pos h2, if_pos h2]
            cases cs with
            | nil => rfl
            | cons d cs2 =>
              cases cs2 with
              | nil => rfl
              | cons e cs' =>
                have h' : cs'.length < f := by
                  have : cs'.length + 2 < f := by simpa using hlf
                  omega
                have h'' : cs'.length < g := by
                  have : cs'.length + 2 < g := by simpa using hlg
                  omega
                simp only [ih g cs' h' h'']
          · rw [if_neg h2, if_neg h2]
            by_cases h3 : (c.toNat == 61) = true
            · rw [if_pos h3, if_pos h3]
              cases cs with
              | nil => rfl
              | cons d cs' =>
                have h' : cs'.length < f := by
                  have : cs'.length + 1 < f := by simpa using hlf
                  omega
                have h'' : cs'.length < g := by
                  have : cs'.length + 1 < g := by simpa using hlg
                  omega
                simp only [ih g cs' h' h'']
            · rw [if_neg h3, if_neg h3]
              by_cases h4 : (c.toNat == 124) = true
              · rw [if_pos h4, if_pos h4]
                cases cs with
                | nil => rfl
                | cons d cs' =>
                  have h' : cs'.length < f := by
                    have : cs'.length + 1 < f := by simpa using hlf
                    omega
                  have h'' : cs'.length < g := by
                    have : cs'.length + 1 < g := by simpa using hlg
                    omega
                  simp only [ih g cs' h' h'']
              · rw [if_neg h4, if_neg h4]
                by_cases h5 : (c.toNat == 38) = true
                · rw [if_pos h5, if_pos h5, ih g cs hlf hlg]
                · rw [if_neg h5, if_neg h5]
                  by_cases h6 : (c.toNat == 126) = true
                  · rw [if_pos h6, if_pos h6, ih g cs hlf hlg]
                  · rw [if_neg h6, if_neg h6]
                    by_cases h7 : (c.toNat == 40) = true
                    · rw [if_pos h7, if_pos h7, ih g cs hlf hlg]
                    · rw [if_neg h7, if_neg h7]
                      by_cases h8 : (c.toNat == 41) = true
                      · rw [if_pos h8, if_pos h8, ih g cs hlf hlg]
                      · rw [if_neg h8, if_neg h8]
                        by_cases h9 : isLowerAlpha c = true
                        · rw [if_pos h9, if_pos h9]
                          have hs := spanDigits_snd_length_le cs
                          rw [ih g (spanDigits cs).2 (by omega) (by omega)]
                        · rw [if_neg h9, if_neg h9]

theorem tokenize_nil : tokenize [] = some [] := rfl

theorem tokenize_amp (cs : List Char) :
    tokenize ('&' :: cs) = (tokenize cs).map (conjT :: ·) := rfl

theorem tokenize_tilde (cs : List Char) :
    tokenize ('~' :: cs) = (tokenize cs).map (negT :: ·) := rfl

theorem tokenize_lpar (cs : List Char) :
    tokenize ('(' :: cs) = (tokenize cs).map (lparT :: ·) := rfl

theorem tokenize_rpar (cs : List Char) :
    tokenize (')' :: cs) = (tokenize cs).map (rparT :: ·) := rfl

theorem tokenize_space (c : Char) (cs : List Char) (h : isPySpace c = true) :
    tokenize (c :: cs) = tokenize cs := by
  show tokenizeF (cs.length + 1 + 1) (c :: cs) = tokenize cs
  simp only [tokenizeF, h, if_true]
  rfl

theorem tokenize_bic (cs : List Char) :
    tokenize ('<' :: '=' :: '>' :: cs) = (tokenize cs).map (bicT :: ·) := by
  have h : tokenizeF (cs.length + 3 + 1) ('<' :: '=' :: '>' :: cs)
      = (tokenizeF (cs.length + 3) cs).map (bicT :: ·) := rfl
  show tokenizeF (cs.length + 3 + 1) ('<' :: '=' :: '>' :: cs) = _
  rw [h, tokenizeF_fuel_irrelevant (cs.length + 3) (cs.length + 1) cs (by omega) (by omega)]
  rfl

theorem tokenize_imp (cs : List Char) :
    tokenize ('=' :: '>' :: cs) = (tokenize cs).map (impT :: ·) := by
  have h : tokenizeF (cs.length + 2 + 1) ('=' :: '>' :: cs)
      = (tokenizeF (cs.length + 2) cs).map (impT :: ·) := rfl
  show tokenizeF (cs.length + 2 + 1) ('=' :: '>' :: cs) = _
  rw [h, tokenizeF_fuel_irrelevant (cs.length + 2) (cs.length + 1) cs (by omega) (by omega)]
  rfl

theorem tokenize_pipe (cs : List Char) :
    tokenize ('|' :: '|' :: cs) = (tokenize cs).map (disjT :: ·) := by
  have h : tokenizeF (cs.length + 2 + 1) ('|' :: '|' :: cs)
      = (tokenizeF (cs.length + 2) cs).map (disjT :: ·) := rfl
  show tokenizeF (cs.length + 2 + 1) ('|' :: '|' :: cs) = _
  rw [h, tokenizeF_fuel_irrelevant (cs.length + 2) (cs.length + 1) cs (by omega) (by omega)]
  rfl

theorem tokenize_atom (c : Char) (cs : List Char) (h : isLowerAlpha c = true) :
    tokenize (c :: cs) =
      (tokenize (spanDigits cs).2).map (atomT (String.mk (c :: (spanDigits cs).1)) :: ·) := by
  have hc : 97 ≤ c.toNat ∧ c.toNat ≤ 122 := by
    simpa [isLowerAlpha, Bool.and_eq_true, decide_eq_true_eq] using h
  obtain ⟨hc1, hc2⟩ := hc
  have h1 : isPySpace c = false := by
    simp only [isPySpace, Bool.or_eq_false_iff, beq_eq_false_iff_ne, ne_eq]
    omega
  have h2 : (c.toNat == 60) = false := by simp only [beq_eq_false_iff_ne, ne_eq]; omega
  have h3 : (c.toNat == 61) = false := by simp only [beq_eq_false_iff_ne, ne_eq]; omega
  have h4 : (c.toNat == 124) = false := by simp only [beq_eq_false_iff_ne, ne_eq]; omega
  have h5 : (c.toNat == 38) = false := by simp only [beq_eq_false_iff_ne, ne_eq]; omega
  have h6 : (c.toNat == 126) = false := by simp only [beq_eq_false_iff_ne, ne_eq]; omega
  have h7 : (c.toNat == 40) = false := by simp only [beq_eq_false_iff_ne, ne_eq]; omega
  have h8 : (c.toNat == 41) = false := by simp only [beq_eq_false_iff_ne, ne_eq]; omega
  show tokenizeF (cs.length + 1 + 1) (c :: cs) = _
  simp only [tokenizeF, h, h1, h2, h3, h4, h5, h6, h7, h8, if_true, Bool.false_eq_true,
    if_false]
  rw [tokenizeF_fuel_irrelevant (cs.length + 1) ((spanDigits cs).2.length + 1) (spanDigits cs).2
    (by have := spanDigits_snd_length_le cs; omega) (by omega)]
  rfl

theorem tokenize_render (e : Expression) (hwf : wfExpr e = true) :
    ∀ rest : List Char, noDigitHead rest = true →
      tokenize (strChars e ++ rest) = (tokenize rest).map (renderToks e ++ ·) := by
  induction e with
  | Atom s =>
    intro rest hrest
    simp only [wfExpr] at hwf
    rcases hdata : s.data with _ | ⟨c, ds⟩
    · rw [validIdent, hdata] at hwf
      simp at hwf
    · rw [validIdent, hdata] at hwf
      simp only [Bool.and_eq_true] at hwf
      obtain ⟨hcl, hds⟩ := hwf
      show tokenize (s.data ++ rest) = _
      rw [hdata, List.cons_append, tokenize_atom c (ds ++ rest) hcl,
        spanDigits_append ds rest (fun d hd => List.all_eq_true.mp hds d hd) hrest]
      have hs : String.mk (c :: ds) = s := by rw [← hdata]
      rw [hs]
      rfl
  | Negation x ih =>
    intro rest hrest
    show tokenize ('~' :: (strChars x ++ rest)) = _
    rw [tokenize_tilde, ih hwf rest hrest]
    cases tokenize rest <;> rfl
  | Conjunction l r ihl ihr =>
    intro rest hrest
    simp only [wfExpr, Bool.and_eq_true] at hwf
    obtain ⟨hl, hr⟩ := hwf
    simp only [strChars, renderToks, List.cons_append, List.nil_append, List.append_assoc]
    rw [tokenize_lpar,
      ihl hl (' ' :: '&' :: ' ' :: (strChars r ++ ')' :: rest)) rfl,
      tokenize_space ' ' ('&' :: ' ' :: (strChars r ++ ')' :: rest)) rfl,
      tokenize_amp,
      tokenize_space ' ' (strChars r ++ ')' :: rest) rfl,
      ihr hr (')' :: rest) rfl,
      tokenize_rpar]
    cases tokenize rest <;> simp
  | Disjunction l r ihl ihr =>
    intro rest hrest
    simp only [wfExpr, Bool.and_eq_true] at hwf
    obtain ⟨hl, hr⟩ := hwf
    simp only [strChars, renderToks, List.cons_append, List.nil_append, List.append_assoc]
    rw [tokenize_lpar,
      ihl hl (' ' :: '|' :: '|' :: ' ' :: (strChars r ++ ')' :: rest)) rfl,
      tokenize_space ' ' ('|' :: '|' :: ' ' :: (strChars r ++ ')' :: rest)) rfl,
      tokenize_pipe,
      tokenize_space ' ' (strChars r ++ ')' :: rest) rfl,
      ihr hr (')' :: rest) rfl,
      tokenize_rpar]
    cases tokenize rest <;> simp
  | Implication l r ihl ihr =>
    intro rest hrest
    simp only [wfExpr, Bool.and_eq_true] at hwf
    obtain ⟨hl, hr⟩ := hwf
    simp only [strChars, renderToks, List.cons_append, List.nil_append, List.append_assoc]
    rw [tokenize_lpar,
      ihl hl (' ' :: '=' :: '>' :: ' ' :: (strChars r ++ ')' :: rest)) rfl,
      tokenize_space ' ' ('=' :: '>' :: ' ' :: (strChars r ++ ')' :: rest)) rfl,
      tokenize_imp,
      tokenize_space ' ' (strChars r ++ ')' :: rest) rfl,
      ihr hr (')' :: rest) rfl,
      tokenize_rpar]
    cases tokenize rest <;> simp
  | Biconditional l r ihl ihr =>
    intro rest hrest
    simp only [wfExpr, Bool.and_eq_true] at hwf
    obtain ⟨hl, hr⟩ := hwf
    simp only [strChars, renderToks, List.cons_append, List.nil_append, List.append_assoc]
    rw [tokenize_lpar,
      ihl hl (' ' :: '<' :: '=' :: '>' :: ' ' :: (strChars r ++ ')' :: rest)) rfl,
      tokenize_space ' ' ('<' :: '=' :: '>' :: ' ' :: (strChars r ++ ')' :: rest)) rfl,
      tokenize_bic,
      tokenize_space ' ' (strChars r ++ ')' :: rest) rfl,
      ihr hr (')' :: rest) rfl,
      tokenize_rpar]
    cases tokenize rest <;> simp

/-- Tokenizing the rendering of a well-formed expression yields exactly its
token sequence. -/
theorem tokenize_strChars (e : Expression) (hwf : wfExpr e = true) :
    tokenize (strChars e) = some (renderToks e) := by
  have h := tokenize_render e hwf [] rfl
  rw [List.append_nil] at h
  rw [h, tokenize_nil]
  simp

/-!
## Parser lemmas
-/

theorem conj_loop_stop (f : Nat) (hf : 1 ≤ f) (acc : Expression) (ts : List Tok)
    (h : ts.head? ≠ some conjT) : conj_loop f acc ts = some (acc, ts) := by
  obtain ⟨g, rfl⟩ : ∃ g, f = g + 1 := ⟨f - 1, by omega⟩
  cases ts with
  | nil => rfl
  | cons t ts => cases t <;> first | rfl | exact absurd rfl h

theorem disj_loop_stop (f : Nat) (hf : 1 ≤ f) (acc : Expression) (ts : List Tok)
    (h : ts.head? ≠ some disjT) : disj_loop f acc ts = some (acc, ts) := by
  obtain ⟨g, rfl⟩ : ∃ g, f = g + 1 := ⟨f - 1, by omega⟩
  cases ts with
  | nil => rfl
  | cons t ts => cases t <;> first | rfl | exact absurd rfl h

theorem imp_loop_stop (f : Nat) (hf : 1 ≤ f) (acc : Expression) (ts : List Tok)
    (h : ts.head? ≠ some impT) : imp_loop f acc ts = some (acc, ts) := by
  obtain ⟨g, rfl⟩ : ∃ g, f = g + 1 := ⟨f - 1, by omega⟩
  cases ts with
  | nil => rfl
  | cons t ts => cases t <;> first | rfl | exact absurd rfl h

theorem bic_loop_stop (f : Nat) (hf : 1 ≤ f) (acc : Expression) (ts : List Tok)
    (h : ts.head? ≠ some bicT) : bic_loop f acc ts = some (acc, ts) := by
  obtain ⟨g, rfl⟩ : ∃ g, f = g + 1 := ⟨f - 1, by omega⟩
  cases ts with
  | nil => rfl
  | cons t ts => cases t <;> first | rfl | exact absurd rfl h

theorem parse_conjunction_of (f : Nat) (ts rest : List Tok) (x : Expression)
    (h : parse_negation f ts = some (x, rest)) (hr : rest.head? ≠ some conjT) :
    parse_conjunction (f + 1) ts = some (x, rest) := by
  have hf : 1 ≤ f := by
    by_contra hc
    have : f = 0 := by omega
    rw [this] at h
    simp [parse_negation] at h
  show parse_conjunction (f + 1) ts = _
  simp only [parse_conjunction, h]
  exact conj_loop_stop f hf x rest hr

theorem parse_disjunction_of (f : Nat) (ts rest : List Tok) (x : Expression)
    (h : parse_negation f ts = some (x, rest)) (h1 : rest.head? ≠ some conjT)
    (h2 : rest.head? ≠ some disjT) :
    parse_disjunction (f + 2) ts = some (x, rest) := by
  have hc := parse_conjunction_of f ts rest x h h1
  show parse_disjunction ((f + 1) + 1) ts = _
  simp only [parse_disjunction, hc]
  exact disj_loop_stop (f + 1) (by omega) x rest h2

theorem parse_implication_of (f : Nat) (ts rest : List Tok) (x : Expression)
    (h : parse_negation f ts = some (x, rest)) (h1 : rest.head? ≠ some conjT)
    (h2 : rest.head? ≠ some disjT) (h3 : rest.head? ≠ some impT) :
    parse_implication (f + 3) ts = some (x, rest) := by
  have hd := parse_disjunction_of f ts rest x h h1 h2
  show parse_implication ((f + 2) + 1) ts = _
  simp only [parse_implication, hd]
  exact imp_loop_stop (f + 2) (by omega) x rest h3

theorem parse_biconditional_of (f : Nat) (ts rest : List Tok) (x : Expression)
    (h : parse_negation f ts = some (x, rest)) (h1 : rest.head? ≠ some conjT)
    (h2 : rest.head? ≠ some disjT) (h3 : rest.head? ≠ some impT)
    (h4 : rest.head? ≠ some bicT) :
    parse_biconditional (f + 4) ts = some (x, rest) := by
  have hi := parse_implication_of f ts rest x h h1 h2 h3
  show parse_biconditional ((f + 3) + 1) ts = _
  simp only [parse_biconditional, hi]
  exact bic_loop_stop (f + 3) (by omega) x rest h4

theorem fuelB_ge_two (e : Expression) : 2 ≤ fuelB e := by
  induction e with
  | Atom s => simp [fuelB]
  | Negation x ih => simp only [fuelB]; omega
  | Conjunction l r _ _ => simp only [fuelB]; omega
  | Disjunction l r _ _ => simp only [fuelB]; omega
  | Implication l r _ _ => simp only [fuelB]; omega
  | Biconditional l r _ _ => simp only [fuelB]; omega

theorem parse_negation_render (e : Expression) (hwf : wfExpr e = true) :
    ∀ (f : Nat) (rest : List Tok), fuelB e ≤ f →
      parse_negation f (renderToks e ++ rest) = some (e, rest) := by
  induction e with
  | Atom s =>
    intro f rest hf
    simp only [fuelB] at hf
    obtain ⟨g, rfl⟩ : ∃ g, f = g + 2 := ⟨f - 2, by omega⟩
    rfl
  | Negation x ih =>
    intro f rest hf
    simp only [fuelB] at hf
    have hx2 := fuelB_ge_two x
    obtain ⟨g, rfl⟩ : ∃ g, f = g + 1 := ⟨f - 1, by omega⟩
    have hin := ih hwf g rest (by omega)
    show parse_negation (g + 1) (negT :: (renderToks x ++ rest)) = _
    simp only [parse_negation, hin]
  | Conjunction l r ihl ihr =>
    intro f rest hf
    simp only [fuelB] at hf
    have hl2 := fuelB_ge_two l
    have hr2 := fuelB_ge_two r
    simp only [wfExpr, Bool.and_eq_true] at hwf
    obtain ⟨hwl, hwr⟩ := hwf
    obtain ⟨k, rfl⟩ : ∃ k, f = k + 7 := ⟨f - 7, by omega⟩
    have h1 : parse_negation (k + 1)
        (renderToks l ++ (conjT :: (renderToks r ++ rparT :: rest)))
        = some (l, conjT :: (renderToks r ++ rparT :: rest)) := ihl hwl (k + 1) _ (by omega)
    have h2 : parse_negation k (renderToks r ++ rparT :: rest) = some (r, rparT :: rest) :=
      ihr hwr k _ (by omega)
    have h5 : conj_loop (k + 1) l (conjT :: (renderToks r ++ rparT :: rest))
        = some (Conjunction l r, rparT :: rest) := by
      simp only [conj_loop, h2]
      exact conj_loop_stop k (by omega) _ _ (by simp)
    have h6 : parse_conjunction (k + 2)
        (renderToks l ++ (conjT :: (renderToks r ++ rparT :: rest)))
        = some (Conjunction l r, rparT :: rest) := by
      show parse_conjunction ((k + 1) + 1) _ = _
      simp only [parse_conjunction, h1]
      exact h5
    have h7 : parse_disjunction (k + 3)
        (renderToks l ++ (conjT :: (renderToks r ++ rparT :: rest)))
        = some (Conjunction l r, rparT :: rest) := by
      show parse_disjunction ((k + 2) + 1) _ = _
      simp only [parse_disjunction, h6]
      exact disj_loop_stop (k + 2) (by omega) _ _ (by simp)
    have h8 : parse_implication (k + 4)
        (renderToks l ++ (conjT :: (renderToks r ++ rparT :: rest)))
        = some (Conjunction l r, rparT :: rest) := by
      show parse_implication ((k + 3) + 1) _ = _
      simp only [parse_implication, h7]
      exact imp_loop_stop (k + 3) (by omega) _ _ (by simp)
    have h9 : parse_biconditional (k + 5)
        (renderToks l ++ (conjT :: (renderToks r ++ rparT :: rest)))
        = some (Conjunction l r, rparT :: rest) := by
      show parse_biconditional ((k + 4) + 1) _ = _
      simp only [parse_biconditional, h8]
      exact bic_loop_stop (k + 4) (by omega) _ _ (by simp)
    simp only [renderToks, List.cons_append, List.append_assoc, List.nil_append]
    show parse_negation ((k + 6) + 1)
      (lparT :: (renderToks l ++ (conjT :: (renderToks r ++ rparT :: rest)))) = _
    simp only [parse_negation, parse_primary, h9]
  | Disjunction l r ihl ihr =>
    intro f rest hf
    simp only [fuelB] at hf
    have hl2 := fuelB_ge_two l
    have hr2 := fuelB_ge_two r
    simp only [wfExpr, Bool.and_eq_true] at hwf
    obtain ⟨hwl, hwr⟩ := hwf
    obtain ⟨k, rfl⟩ : ∃ k, f = k + 7 := ⟨f - 7, by omega⟩
    have h1 : parse_negation (k + 1)
        (renderToks l ++ (disjT :: (renderToks r ++ rparT :: rest)))
        = some (l, disjT :: (renderToks r ++ rparT :: rest)) := ihl hwl (k + 1) _ (by omega)
    have h2 : parse_negation k (renderToks r ++ rparT :: rest) = some (r, rparT :: rest) :=
      ihr hwr k _ (by omega)
    have h3 : parse_conjunction (k + 2)
        (renderToks l ++ (disjT :: (renderToks r ++ rparT :: rest)))
        = some (l, disjT :: (renderToks r ++ rparT :: rest)) :=
      parse_conjunction_of (k + 1) _ _ _ h1 (by simp)
    have h4 : parse_conjunction (k + 1) (renderToks r ++ rparT :: rest)
        = some (r, rparT :: rest) :=
      parse_conjunction_of k _ _ _ h2 (by simp)
    have h5 : disj_loop (k + 2) l (disjT :: (renderToks r ++ rparT :: rest))
        = some (Disjunction l r, rparT :: rest) := by
      simp only [disj_loop, h4]
    have h6 : parse_disjunction (k + 3)
        (renderToks l ++ (disjT :: (renderToks r ++ rparT :: rest)))
        = some (Disjunction l r, rparT :: rest) := by
      show parse_disjunction ((k + 2) + 1) _ = _
      simp only [parse_disjunction, h3]
      exact h5
    have h8 : parse_implication (k + 4)
        (renderToks l ++ (disjT :: (renderToks r ++ rparT :: rest)))
        = some (Disjunction l r, rparT :: rest) := by
      show parse_implication ((k + 3) + 1) _ = _
      simp only [parse_implication, h6]
      exact imp_loop_stop (k + 3) (by omega) _ _ (by simp)
    have h9 : parse_biconditional (k + 5)
        (renderToks l ++ (disjT :: (renderToks r ++ rparT :: rest)))
        = some (Disjunction l r, rparT :: rest) := by
      show parse_biconditional ((k + 4) + 1) _ = _
      simp only [parse_biconditional, h8]
      exact bic_loop_stop (k + 4) (by omega) _ _ (by simp)
    simp only [renderToks, List.cons_append, List.append_assoc, List.nil_append]
    show parse_negation ((k + 6) + 1)
      (lparT :: (renderToks l ++ (disjT :: (renderToks r ++ rparT :: rest)))) = _
    simp only [parse_negation, parse_primary, h9]
  | Implication l r ihl ihr =>
    intro f rest hf
    simp only [fuelB] at hf
    have hl2 := fuelB_ge_two l
    have hr2 := fuelB_ge_two r
    simp only [wfExpr, Bool.and_eq_true] at hwf
    obtain ⟨hwl, hwr⟩ := hwf
    obtain ⟨k, rfl⟩ : ∃ k, f = k + 7 := ⟨f - 7, by omega⟩
    have h1 : parse_negation (k + 1)
        (renderToks l ++ (impT :: (renderToks r ++ rparT :: rest)))
        = some (l, impT :: (renderToks r ++ rparT :: rest)) := ihl hwl (k + 1) _ (by omega)
    have h2 : parse_negation k (renderToks r ++ rparT :: rest) = some (r, rparT :: rest) :=
      ihr hwr k _ (by omega)
    have h3 : parse_disjunction (k + 3)
        (renderToks l ++ (impT :: (renderToks r ++ rparT :: rest)))
        = some (l, impT :: (renderToks r ++ rparT :: rest)) :=
      parse_disjunction_of (k + 1) _ _ _ h1 (by simp) (by simp)
    have h4 : parse_disjunction (k + 2) (renderToks r ++ rparT :: rest)
        = some (r, rparT :: rest) :=
      parse_disjunction_of k _ _ _ h2 (by simp) (by simp)
    have h5 : imp_loop (k + 3) l (impT :: (renderToks r ++ rparT :: rest))
        = some (Implication l r, rparT :: rest) := by
      simp only [imp_loop, h4]
    have h6 : parse_implication (k + 4)
        (renderToks l ++ (impT :: (renderToks r ++ rparT :: rest)))
        = some (Implication l r, rparT :: rest) := by
      show parse_implication ((k + 3) + 1) _ = _
      simp only [parse_implication, h3]
      exact h5
    have h9 : parse_biconditional (k + 5)
        (renderToks l ++ (impT :: (renderToks r ++ rparT :: rest)))
        = some (Implication l r, rparT :: rest) := by
      show parse_biconditional ((k + 4) + 1) _ = _
      simp only [parse_biconditional, h6]
      exact bic_loop_stop (k + 4) (by omega) _ _ (by simp)
    simp only [renderToks, List.cons_append, List.append_assoc, List.nil_append]
    show parse_negation ((k + 6) + 1)
      (lparT :: (renderToks l ++ (impT :: (renderToks r ++ rparT :: rest)))) = _
    simp only [parse_negation, parse_primary, h9]
  | Biconditional l r ihl ihr =>
    intro f rest hf
    simp only [fuelB] at hf
    have hl2 := fuelB_ge_two l
    have hr2 := fuelB_ge_two r
    simp only [wfExpr, Bool.and_eq_true] at hwf
    obtain ⟨hwl, hwr⟩ := hwf
    obtain ⟨k, rfl⟩ : ∃ k, f = k + 7 := ⟨f - 7, by omega⟩
    have h1 : parse_negation (k + 1)
        (renderToks l ++ (bicT :: (renderToks r ++ rparT :: rest)))
        = some (l, bicT :: (renderToks r ++ rparT :: rest)) := ihl hwl (k + 1) _ (by omega)
    have h2 : parse_negation k (renderToks r ++ rparT :: rest) = some (r, rparT :: rest) :=
      ihr hwr k _ (by omega)
    have h3 : parse_implication (k + 4)
        (renderToks l ++ (bicT :: (renderToks r ++ rparT :: rest)))
        = some (l, bicT :: (renderToks r ++ rparT :: rest)) :=
      parse_implication_of (k + 1) _ _ _ h1 (by simp) (by simp) (by simp)
    have h4 : parse_implication (k + 3) (renderToks r ++ rparT :: rest)
        = some (r, rparT :: rest) :=
      parse_implication_of k _ _ _ h2 (by simp) (by simp) (by simp)
    have h5 : bic_loop (k + 4) l (bicT :: (renderToks r ++ rparT :: rest))
        = some (Biconditional l r, rparT :: rest) := by
      simp only [bic_loop, h4]
    have h9 : parse_biconditional (k + 5)
        (renderToks l ++ (bicT :: (renderToks r ++ rparT :: rest)))
        = some (Biconditional l r, rparT :: rest) := by
      show parse_biconditional ((k + 4) + 1) _ = _
      simp only [parse_biconditional, h3]
      exact h5
    simp only [renderToks, List.cons_append, List.append_assoc, List.nil_append]
    show parse_negation ((k + 6) + 1)
      (lparT :: (renderToks l ++ (bicT :: (renderToks r ++ rparT :: rest)))) = _
    simp only [parse_negation, parse_primary, h9]

theorem fuelB_le_renderToks (e : Expression) : fuelB e ≤ 8 * (renderToks e).length := by
  induction e with
  | Atom s => simp [fuelB, renderToks]
  | Negation x ih =>
    simp only [fuelB, renderToks, List.length_cons]
    omega
  | Conjunction l r ihl ihr =>
    simp only [fuelB, renderToks, List.length_cons, List.length_append]
    omega
  | Disjunction l r ihl ihr =>
    simp only [fuelB, renderToks, List.length_cons, List.length_append]
    omega
  | Implication l r ihl ihr =>
    simp only [fuelB, renderToks, List.length_cons, List.length_append]
    omega
  | Biconditional l r ihl ihr =>
    simp only [fuelB, renderToks, List.length_cons, List.length_append]
    omega

theorem parseTokens_render (e : Expression) (hwf : wfExpr e = true) :
    parseTokens (renderToks e) = some e := by
  have hb := fuelB_le_renderToks e
  have h := parse_negation_render e hwf (8 * (renderToks e).length + 4) [] (by omega)
  rw [List.append_nil] at h
  have hbic := parse_biconditional_of (8 * (renderToks e).length + 4) (renderToks e) [] e h
    (by simp) (by simp) (by simp) (by simp)
  show parseTokens (renderToks e) = some e
  simp only [parseTokens]
  rw [show 8 * (renderToks e).length + 8 = (8 * (renderToks e).length + 4) + 4 from by omega,
    hbic]

theorem parse_negation_atom (f : Nat) (s : String) (rest : List Tok) (hf : 2 ≤ f) :
    parse_negation f (atomT s :: rest) = some (Atom s, rest) := by
  obtain ⟨g, rfl⟩ : ∃ g, f = g + 2 := ⟨f - 2, by omega⟩
  rfl

theorem tokenize_only_spaces (cs : List Char) (h : ∀ c ∈ cs, isPySpace c = true) :
    tokenize cs = some [] := by
  induction cs with
  | nil => rfl
  | cons c cs ih =>
    rw [tokenize_space c cs (h c (by simp))]
    exact ih fun d hd => h d (by simp [hd])

theorem flatMap_op_head (t : Tok) (bs : List String) :
    (bs.flatMap fun b => [t, atomT b]).head? = none ∨
      (bs.flatMap fun b => [t, atomT b]).head? = some t := by
  cases bs <;> simp

theorem flatMap_pair_length (t : Tok) (bs : List String) :
    (bs.flatMap fun b => [t, atomT b]).length = 2 * bs.length := by
  induction bs with
  | nil => rfl
  | cons b bs ih =>
    simp only [List.flatMap_cons, List.length_append, List.length_cons, List.length_nil, ih]
    omega

theorem imp_loop_fold : ∀ (bs : List String) (f : Nat) (acc : Expression),
    4 * bs.length + 1 ≤ f →
    imp_loop f acc (bs.flatMap fun b => [impT, atomT b])
      = some (bs.foldl (fun acc b => Implication acc (Atom b)) acc, []) := by
  intro bs
  induction bs with
  | nil =>
    intro f acc hf
    simp only [List.flatMap_nil, List.foldl_nil]
    exact imp_loop_stop f (by omega) acc [] (by simp)
  | cons b bs ih =>
    intro f acc hf
    simp only [List.length_cons] at hf
    simp only [List.flatMap_cons, List.cons_append, List.nil_append, List.foldl_cons]
    obtain ⟨g, rfl⟩ : ∃ g, f = g + 5 := ⟨f - 5, by omega⟩
    show imp_loop ((g + 4) + 1) acc (impT :: (atomT b :: _)) = _
    have hd : parse_disjunction (g + 4) (atomT b :: (bs.flatMap fun b => [impT, atomT b]))
        = some (Atom b, bs.flatMap fun b => [impT, atomT b]) := by
      refine parse_disjunction_of (g + 2) _ _ _ (parse_negation_atom (g + 2) b _ (by omega)) ?_ ?_
      · rcases flatMap_op_head impT bs with h | h <;> simp [h]
      · rcases flatMap_op_head impT bs with h | h <;> simp [h]
    simp only [imp_loop, hd]
    exact ih (g + 4) _ (by omega)

theorem bic_loop_fold : ∀ (bs : List String) (f : Nat) (acc : Expression),
    4 * bs.length + 6 ≤ f →
    bic_loop f acc (bs.flatMap fun b => [bicT, atomT b])
      = some (bs.foldl (fun acc b => Biconditional acc (Atom b)) acc, []) := by
  intro bs
  induction bs with
  | nil =>
    intro f acc hf
    simp only [List.flatMap_nil, List.foldl_nil]
    exact bic_loop_stop f (by omega) acc [] (by simp)
  | cons b bs ih =>
    intro f acc hf
    simp only [List.length_cons] at hf
    simp only [List.flatMap_cons, List.cons_append, List.nil_append, List.foldl_cons]
    obtain ⟨g, rfl⟩ : ∃ g, f = g + 4 := ⟨f - 4, by omega⟩
    show bic_loop ((g + 3) + 1) acc (bicT :: (atomT b :: _)) = _
    have hi : parse_implication (g + 3) (atomT b :: (bs.flatMap fun b => [bicT, atomT b]))
        = some (Atom b, bs.flatMap fun b => [bicT, atomT b]) := by
      refine parse_implication_of g _ _ _ (parse_negation_atom g b _ (by omega)) ?_ ?_ ?_
      · rcases flatMap_op_head bicT bs with h | h <;> simp [h]
      · rcases flatMap_op_head bicT bs with h | h <;> simp [h]
      · rcases flatMap_op_head bicT bs with h | h <;> simp [h]
    simp only [bic_loop, hi]
    exact ih (g + 3) _ (by omega)

theorem parseTokens_imp_chain (a : String) (bs : List String) :
    parseTokens (atomT a :: bs.flatMap fun b => [impT, atomT b])
      = some (bs.foldl (fun acc b => Implication acc (Atom b)) (Atom a)) := by
  have hlen : (atomT a :: bs.flatMap fun b => [impT, atomT b]).length = 2 * bs.length + 1 := by
    simp only [List.length_cons, flatMap_pair_length]
  have h1 : parse_disjunction (16 * bs.length + 14)
      (atomT a :: bs.flatMap fun b => [impT, atomT b])
      = some (Atom a, bs.flatMap fun b => [impT, atomT b]) := by
    refine parse_disjunction_of (16 * bs.length + 12) _ _ _
      (parse_negation_atom _ a _ (by omega)) ?_ ?_
    · rcases flatMap_op_head impT bs with h | h <;> simp [h]
    · rcases flatMap_op_head impT bs with h | h <;> simp [h]
  have h2 : parse_implication ((16 * bs.length + 14) + 1)
      (atomT a :: bs.flatMap fun b => [impT, atomT b])
      = some (bs.foldl (fun acc b => Implication acc (Atom b)) (Atom a), []) := by
    simp only [parse_implication, h1]
    exact imp_loop_fold bs (16 * bs.length + 14) (Atom a) (by omega)
  have h3 : parse_biconditional ((16 * bs.length + 15) + 1)
      (atomT a :: bs.flatMap fun b => [impT, atomT b])
      = some (bs.foldl (fun acc b => Implication acc (Atom b)) (Atom a), []) := by
    simp only [parse_biconditional]
    rw [show (16 * bs.length + 15) = (16 * bs.length + 14) + 1 from by omega, h2]
    exact bic_loop_stop ((16 * bs.length + 14) + 1) (by omega) _ _ (by simp)
  simp only [parseTokens, hlen]
  rw [show 8 * (2 * bs.length + 1) + 8 = (16 * bs.length + 15) + 1 from by omega, h3]

theorem parseTokens_bic_chain (a : String) (bs : List String) :
    parseTokens (atomT a :: bs.flatMap fun b => [bicT, atomT b])
      = some (bs.foldl (fun acc b => Biconditional acc (Atom b)) (Atom a)) := by
  have hlen : (atomT a :: bs.flatMap fun b => [bicT, atomT b]).length = 2 * bs.length + 1 := by
    simp only [List.length_cons, flatMap_pair_length]
  have h1 : parse_implication (16 * bs.length + 15)
      (atomT a :: bs.flatMap fun b => [bicT, atomT b])
      = some (Atom a, bs.flatMap fun b => [bicT, atomT b]) := by
    refine parse_implication_of (16 * bs.length + 12) _ _ _
      (parse_negation_atom _ a _ (by omega)) ?_ ?_ ?_
    · rcases flatMap_op_head bicT bs with h | h <;> simp [h]
    · rcases flatMap_op_head bicT bs with h | h <;> simp [h]
    · rcases flatMap_op_head bicT bs with h | h <;> simp [h]
  have h3 : parse_biconditional ((16 * bs.length + 15) + 1)
      (atomT a :: bs.flatMap fun b => [bicT, atomT b])
      = some (bs.foldl (fun acc b => Biconditional acc (Atom b)) (Atom a), []) := by
    simp only [parse_biconditional, h1]
    exact bic_loop_fold bs (16 * bs.length + 15) (Atom a) (by omega)
  simp only [parseTokens, hlen]
  rw [show 8 * (2 * bs.length + 1) + 8 = (16 * bs.length + 15) + 1 from by omega, h3]

/-!
## Well-formedness of tokenizer and parser outputs
-/

theorem spanDigits_fst_digits (l : List Char) : ((spanDigits l).1).all isDigitC = true := by
  induction l with
  | nil => rfl
  | cons c cs ih =>
    simp only [spanDigits]
    split
    case isTrue h => simpa [h] using ih
    case isFalse h => rfl

theorem tokenizeF_toksWF : ∀ (f : Nat) (cs : List Char) (ts : List Tok),
    tokenizeF f cs = some ts → toksWF ts = true := by
  intro f
  induction f with
  | zero => intro cs ts h; simp [tokenizeF] at h
  | succ f ih =>
    intro cs ts h
    cases cs with
    | nil =>
      simp only [tokenizeF, Option.some.injEq] at h
      subst h
      rfl
    | cons c cs =>
      simp only [tokenizeF] at h
      by_cases h1 : isPySpace c = true
      · rw [if_pos h1] at h
        exact ih cs ts h
      · rw [if_neg h1] at h
        by_cases h2 : (c.toNat == 60) = true
        · rw [if_pos h2] at h
          cases cs with
          | nil => simp at h
          | cons d cs2 =>
            cases cs2 with
            | nil => simp at h
            | cons e cs' =>
              replace h : (if (d.toNat == 61 && e.toNat == 62) = true then
                  Option.map (fun x => bicT :: x) (tokenizeF f cs') else none) = some ts := h
              by_cases hde : (d.toNat == 61 && e.toNat == 62) = true
              · rw [if_pos hde] at h
                obtain ⟨ts', hts', rfl⟩ := Option.map_eq_some'.mp h
                simpa [toksWF] using ih cs' ts' hts'
              · rw [if_neg hde] at h
                simp at h
        · rw [if_neg h2] at h
          by_cases h3 : (c.toNat == 61) = true
          · rw [if_pos h3] at h
            cases cs with
            | nil => simp at h
            | cons d cs' =>
              replace h : (if (d.toNat == 62) = true then
                  Option.map (fun x => impT :: x) (tokenizeF f cs') else none) = some ts := h
              by_cases hd : (d.toNat == 62) = true
              · rw [if_pos hd] at h
                obtain ⟨ts', hts', rfl⟩ := Option.map_eq_some'.mp h
                simpa [toksWF] using ih cs' ts' hts'
              · rw [if_neg hd] at h
                simp at h
          · rw [if_neg h3] at h
            by_cases h4 : (c.toNat == 124) = true
            · rw [if_pos h4] at h
              cases cs with
              | nil => simp at h
              | cons d cs' =>
                replace h : (if (d.toNat == 124) = true then
                    Option.map (fun x => disjT :: x) (tokenizeF f cs') else none) = some ts := h
                by_cases hd : (d.toNat == 124) = true
                · rw [if_pos hd] at h
                  obtain ⟨ts', hts', rfl⟩ := Option.map_eq_some'.mp h
                  simpa [toksWF] using ih cs' ts' hts'
                · rw [if_neg hd] at h
                  simp at h
            · rw [if_neg h4] at h
              by_cases h5 : (c.toNat == 38) = true
              · rw [if_pos h5] at h
                obtain ⟨ts', hts', rfl⟩ := Option.map_eq_some'.mp h
                simpa [toksWF] using ih cs ts' hts'
              · rw [if_neg h5] at h
                by_cases h6 : (c.toNat == 126) = true
                · rw [if_pos h6] at h
                  obtain ⟨ts', hts', rfl⟩ := Option.map_eq_some'.mp h
                  simpa [toksWF] using ih cs ts' hts'
                · rw [if_neg h6] at h
                  by_cases h7 : (c.toNat == 40) = true
                  · rw [if_pos h7] at h
                    obtain ⟨ts', hts', rfl⟩ := Option.map_eq_some'.mp h
                    simpa [toksWF] using ih cs ts' hts'
                  · rw [if_neg h7] at h
                    by_cases h8 : (c.toNat == 41) = true
                    · rw [if_pos h8] at h
                      obtain ⟨ts', hts', rfl⟩ := Option.map_eq_some'.mp h
                      simpa [toksWF] using ih cs ts' hts'
                    · rw [if_neg h8] at h
                      by_cases h9 : isLowerAlpha c = true
                      · rw [if_pos h9] at h
                        obtain ⟨ts', hts', rfl⟩ := Option.map_eq_some'.mp h
                        simp only [toksWF, List.all_cons, Bool.and_eq_true]
                        constructor
                        · show validIdent (String.mk (c :: (spanDigits cs).1)) = true
                          show (isLowerAlpha c && ((spanDigits cs).1).all isDigitC) = true
                          simp [h9, spanDigits_fst_digits]
                        · exact ih _ ts' hts'
                      · rw [if_neg h9] at h
                        simp at h

/-- Every expression returned by any parser level (on a well-formed token
list) is well-formed, and the unconsumed remainder is again a well-formed
token list.  The ten conjuncts cover the six grammar levels and the four
binary-operator fold loops. -/
theorem parsers_wf : ∀ f : Nat,
    (∀ ts e rest, toksWF ts = true → parse_primary f ts = some (e, rest) →
      wfExpr e = true ∧ toksWF rest = true) ∧
    (∀ ts e rest, toksWF ts = true → parse_negation f ts = some (e, rest) →
      wfExpr e = true ∧ toksWF rest = true) ∧
    (∀ ts e rest, toksWF ts = true → parse_conjunction f ts = some (e, rest) →
      wfExpr e = true ∧ toksWF rest = true) ∧
    (∀ acc ts e rest, wfExpr acc = true → toksWF ts = true →
      conj_loop f acc ts = some (e, rest) → wfExpr e = true ∧ toksWF rest = true) ∧
    (∀ ts e rest, toksWF ts = true → parse_disjunction f ts = some (e, rest) →
      wfExpr e = true ∧ toksWF rest = true) ∧
    (∀ acc ts e rest, wfExpr acc = true → toksWF ts = true →
      disj_loop f acc ts = some (e, rest) → wfExpr e = true ∧ toksWF rest = true) ∧
    (∀ ts e rest, toksWF ts = true → parse_implication f ts = some (e, rest) →
      wfExpr e = true ∧ toksWF rest = true) ∧
    (∀ acc ts e rest, wfExpr acc = true → toksWF ts = true →
      imp_loop f acc ts = some (e, rest) → wfExpr e = true ∧ toksWF rest = true) ∧
    (∀ ts e rest, toksWF ts = true → parse_biconditional f ts = some (e, rest) →
      wfExpr e = true ∧ toksWF rest = true) ∧
    (∀ acc ts e rest, wfExpr acc = true → toksWF ts = true →
      bic_loop f acc ts = some (e, rest) → wfExpr e = true ∧ toksWF rest = true) := by
  intro f
  induction f with
  | zero =>
    refine ⟨?_, ?_, ?_, ?_, ?_, ?_, ?_, ?_, ?_, ?_⟩
    · intro ts e rest _ h; simp [parse_primary] at h
    · intro ts e rest _ h; simp [parse_negation] at h
    · intro ts e rest _ h; simp [parse_conjunction] at h
    · intro acc ts e rest _ _ h; simp [conj_loop] at h
    · intro ts e rest _ h; simp [parse_disjunction] at h
    · intro acc ts e rest _ _ h; simp [disj_loop] at h
    · intro ts e rest _ h; simp [parse_implication] at h
    · intro acc ts e rest _ _ h; simp [imp_loop] at h
    · intro ts e rest _ h; simp [parse_biconditional] at h
    · intro acc ts e rest _ _ h; simp [bic_loop] at h
  | succ f ih =>
    obtain ⟨ihp, ihn, ihc, ihcl, ihd, ihdl, ihi, ihil, ihb, ihbl⟩ := ih
    refine ⟨?_, ?_, ?_, ?_, ?_, ?_, ?_, ?_, ?_, ?_⟩
    · intro ts e rest hwf h
      cases ts with
      | nil => simp [parse_primary] at h
      | cons t ts2 =>
        cases t with
        | atomT s =>
          simp only [parse_primary, Option.some.injEq, Prod.mk.injEq] at h
          obtain ⟨rfl, rfl⟩ := h
          simp only [toksWF, List.all_cons, Bool.and_eq_true] at hwf
          exact ⟨hwf.1, hwf.2⟩
        | lparT =>
          simp only [parse_primary] at h
          rcases hb : parse_biconditional f ts2 with _ | ⟨e2, rest2⟩
          · rw [hb] at h; exact Option.noConfusion h
          · rw [hb] at h
            cases rest2 with
            | nil => exact Option.noConfusion h
            | cons t2 ts3 =>
              have hts2 : toksWF ts2 = true := by simpa [toksWF] using hwf
              cases t2 with
              | rparT =>
                simp only [Option.some.injEq, Prod.mk.injEq] at h
                obtain ⟨rfl, rfl⟩ := h
                have hr := ihb ts2 e2 (rparT :: ts3) hts2 hb
                refine ⟨hr.1, ?_⟩
                simpa [toksWF] using hr.2
              | atomT s2 => exact Option.noConfusion h
              | negT => exact Option.noConfusion h
              | conjT => exact Option.noConfusion h
              | disjT => exact Option.noConfusion h
              | impT => exact Option.noConfusion h
              | bicT => exact Option.noConfusion h
              | lparT => exact Option.noConfusion h
        | negT => exact Option.noConfusion h
        | conjT => exact Option.noConfusion h
        | disjT => exact Option.noConfusion h
        | impT => exact Option.noConfusion h
        | bicT => exact Option.noConfusion h
        | rparT => exact Option.noConfusion h
    · intro ts e rest hwf h
      cases ts with
      | nil => exact ihp [] e rest rfl h
      | cons t ts2 =>
        cases t with
        | negT =>
          simp only [parse_negation] at h
          rcases hn : parse_negation f ts2 with _ | ⟨e2, rest2⟩
          · rw [hn] at h; exact Option.noConfusion h
          · rw [hn] at h
            simp only [Option.some.injEq, Prod.mk.injEq] at h
            obtain ⟨rfl, rfl⟩ := h
            have hts2 : toksWF ts2 = true := by simpa [toksWF] using hwf
            exact ihn ts2 e2 rest2 hts2 hn
        | atomT s => exact ihp _ e rest hwf h
        | conjT => exact ihp _ e rest hwf h
        | disjT => exact ihp _ e rest hwf h
        | impT => exact ihp _ e rest hwf h
        | bicT => exact ihp _ e rest hwf h
        | lparT => exact ihp _ e rest hwf h
        | rparT => exact ihp _ e rest hwf h
    · intro ts e rest hwf h
      rcases hn : parse_negation f ts with _ | ⟨x, ts2⟩
      · simp only [parse_conjunction, hn] at h
        exact Option.noConfusion h
      · simp only [parse_conjunction, hn] at h
        have hx := ihn ts x ts2 hwf hn
        exact ihcl x ts2 e rest hx.1 hx.2 h
    · intro acc ts e rest hacc hwf h
      cases ts with
      | nil =>
        simp only [conj_loop, Option.some.injEq, Prod.mk.injEq] at h
        obtain ⟨rfl, rfl⟩ := h
        exact ⟨hacc, rfl⟩
      | cons t ts2 =>
        cases t with
        | conjT =>
          simp only [conj_loop] at h
          rcases hn : parse_negation f ts2 with _ | ⟨r, ts3⟩
          · rw [hn] at h; exact Option.noConfusion h
          · rw [hn] at h
            have hts2 : toksWF ts2 = true := by simpa [toksWF] using hwf
            have hr := ihn ts2 r ts3 hts2 hn
            exact ihcl (Conjunction acc r) ts3 e rest
              (by simp [wfExpr, hacc, hr.1]) hr.2 h
        | atomT s =>
          simp only [conj_loop, Option.some.injEq, Prod.mk.injEq] at h
          obtain ⟨rfl, rfl⟩ := h
          exact ⟨hacc, hwf⟩
        | negT =>
          simp only [conj_loop, Option.some.injEq, Prod.mk.injEq] at h
          obtain ⟨rfl, rfl⟩ := h
          exact ⟨hacc, hwf⟩
        | disjT =>
          simp only [conj_loop, Option.some.injEq, Prod.mk.injEq] at h
          obtain ⟨rfl, rfl⟩ := h
          exact ⟨hacc, hwf⟩
        | impT =>
          simp only [conj_loop, Option.some.injEq, Prod.mk.injEq] at h
          obtain ⟨rfl, rfl⟩ := h
          exact ⟨hacc, hwf⟩
        | bicT =>
          simp only [conj_loop, Option.some.injEq, Prod.mk.injEq] at h
          obtain ⟨rfl, rfl⟩ := h
          exact ⟨hacc, hwf⟩
        | lparT =>
          simp only [conj_loop, Option.some.injEq, Prod.mk.injEq] at h
          obtain ⟨rfl, rfl⟩ := h
          exact ⟨hacc, hwf⟩
        | rparT =>
          simp only [conj_loop, Option.some.injEq, Prod.mk.injEq] at h
          obtain ⟨rfl, rfl⟩ := h
          exact ⟨hacc, hwf⟩
    · intro ts e rest hwf h
      rcases hn : parse_conjunction f ts with _ | ⟨x, ts2⟩
      · simp only [parse_disjunction, hn] at h
        exact Option.noConfusion h
      · simp only [parse_disjunction, hn] at h
        have hx := ihc ts x ts2 hwf hn
        exact ihdl x ts2 e rest hx.1 hx.2 h
    · intro acc ts e rest hacc hwf h
      cases ts with
      | nil =>
        simp only [disj_loop, Option.some.injEq, Prod.mk.injEq] at h
        obtain ⟨rfl, rfl⟩ := h
        exact ⟨hacc, rfl⟩
      | cons t ts2 =>
        cases t with
        | disjT =>
          simp only [disj_loop] at h
          rcases hn : parse_conjunction f ts2 with _ | ⟨r, ts3⟩
          · rw [hn] at h; exact Option.noConfusion h
          · rw [hn] at h
            have hts2 : toksWF ts2 = true := by simpa [toksWF] using hwf
            have hr := ihc ts2 r ts3 hts2 hn
            exact ihdl (Disjunction acc r) ts3 e rest
              (by simp [wfExpr, hacc, hr.1]) hr.2 h
        | atomT s =>
          simp only [disj_loop, Option.some.injEq, Prod.mk.injEq] at h
          obtain ⟨rfl, rfl⟩ := h
          exact ⟨hacc, hwf⟩
        | negT =>
          simp only [disj_loop, Option.some.injEq, Prod.mk.injEq] at h
          obtain ⟨rfl, rfl⟩ := h
          exact ⟨hacc, hwf⟩
        | conjT =>
          simp only [disj_loop, Option.some.injEq, Prod.mk.injEq] at h
          obtain ⟨rfl, rfl⟩ := h
          exact ⟨hacc, hwf⟩
        | impT =>
          simp only [disj_loop, Option.some.injEq, Prod.mk.injEq] at h
          obtain ⟨rfl, rfl⟩ := h
          exact ⟨hacc, hwf⟩
        | bicT =>
          simp only [disj_loop, Option.some.injEq, Prod.mk.injEq] at h
          obtain ⟨rfl, rfl⟩ := h
          exact ⟨hacc, hwf⟩
        | lparT =>
          simp only [disj_loop, Option.some.injEq, Prod.mk.injEq] at h
          obtain ⟨rfl, rfl⟩ := h
          exact ⟨hacc, hwf⟩
        | rparT =>
          simp only [disj_loop, Option.some.injEq, Prod.mk.injEq] at h
          obtain ⟨rfl, rfl⟩ := h
          exact ⟨hacc, hwf⟩
    · intro ts e rest hwf h
      rcases hn : parse_disjunction f ts with _ | ⟨x, ts2⟩
      · simp only [parse_implication, hn] at h
        exact Option.noConfusion h
      · simp only [parse_implication, hn] at h
        have hx := ihd ts x ts2 hwf hn
        exact ihil x ts2 e rest hx.1 hx.2 h
    · intro acc ts e rest hacc hwf h
      cases ts with
      | nil =>
        simp only [imp_loop, Option.some.injEq, Prod.mk.injEq] at h
        obtain ⟨rfl, rfl⟩ := h
        exact ⟨hacc, rfl⟩
      | cons t ts2 =>
        cases t with
        | impT =>
          simp only [imp_loop] at h
          rcases hn : parse_disjunction f ts2 with _ | ⟨r, ts3⟩
          · rw [hn] at h; exact Option.noConfusion h
          · rw [hn] at h
            have hts2 : toksWF ts2 = true := by simpa [toksWF] using hwf
            have hr := ihd ts2 r ts3 hts2 hn
            exact ihil (Implication acc r) ts3 e rest
              (by simp [wfExpr, hacc, hr.1]) hr.2 h
        | atomT s =>
          simp only [imp_loop, Option.some.injEq, Prod.mk.injEq] at h
          obtain ⟨rfl, rfl⟩ := h
          exact ⟨hacc, hwf⟩
        | negT =>
          simp only [imp_loop, Option.some.injEq, Prod.mk.injEq] at h
          obtain ⟨rfl, rfl⟩ := h
          exact ⟨hacc, hwf⟩
        | conjT =>
          simp only [imp_loop, Option.some.injEq, Prod.mk.injEq] at h
          obtain ⟨rfl, rfl⟩ := h
          exact ⟨hacc, hwf⟩
        | disjT =>
          simp only [imp_loop, Option.some.injEq, Prod.mk.injEq] at h
          obtain ⟨rfl, rfl⟩ := h
          exact ⟨hacc, hwf⟩
        | bicT =>
          simp only [imp_loop, Option.some.injEq, Prod.mk.injEq] at h
          obtain ⟨rfl, rfl⟩ := h
          exact ⟨hacc, hwf⟩
        | lparT =>
          simp only [imp_loop, Option.some.injEq, Prod.mk.injEq] at h
          obtain ⟨rfl, rfl⟩ := h
          exact ⟨hacc, hwf⟩
        | rparT =>
          simp only [imp_loop, Option.some.injEq, Prod.mk.injEq] at h
          obtain ⟨rfl, rfl⟩ := h
          exact ⟨hacc, hwf⟩
    · intro ts e rest hwf h
      rcases hn : parse_implication f ts with _ | ⟨x, ts2⟩
      · simp only [parse_biconditional, hn] at h
        exact Option.noConfusion h
      · simp only [parse_biconditional, hn] at h
        have hx := ihi ts x ts2 hwf hn
        exact ihbl x ts2 e rest hx.1 hx.2 h
    · intro acc ts e rest hacc hwf h
      cases ts with
      | nil =>
        simp only [bic_loop, Option.some.injEq, Prod.mk.injEq] at h
        obtain ⟨rfl, rfl⟩ := h
        exact ⟨hacc, rfl⟩
      | cons t ts2 =>
        cases t with
        | bicT =>
          simp only [bic_loop] at h
          rcases hn : parse_implication f ts2 with _ | ⟨r, ts3⟩
          · rw [hn] at h; exact Option.noConfusion h
          · rw [hn] at h
            have hts2 : toksWF ts2 = true := by simpa [toksWF] using hwf
            have hr := ihi ts2 r ts3 hts2 hn
            exact ihbl (Biconditional acc r) ts3 e rest
              (by simp [wfExpr, hacc, hr.1]) hr.2 h
        | atomT s =>
          simp only [bic_loop, Option.some.injEq, Prod.mk.injEq] at h
          obtain ⟨rfl, rfl⟩ := h
          exact ⟨hacc, hwf⟩
        | negT =>
          simp only [bic_loop, Option.some.injEq, Prod.mk.injEq] at h
          obtain ⟨rfl, rfl⟩ := h
          exact ⟨hacc, hwf⟩
        | conjT =>
          simp only [bic_loop, Option.some.injEq, Prod.mk.injEq] at h
          obtain ⟨rfl, rfl⟩ := h
          exact ⟨hacc, hwf⟩
        | disjT =>
          simp only [bic_loop, Option.some.injEq, Prod.mk.injEq] at h
          obtain ⟨rfl, rfl⟩ := h
          exact ⟨hacc, hwf⟩
        | impT =>
          simp only [bic_loop, Option.some.injEq, Prod.mk.injEq] at h
          obtain ⟨rfl, rfl⟩ := h
          exact ⟨hacc, hwf⟩
        | lparT =>
          simp only [bic_loop, Option.some.injEq, Prod.mk.injEq] at h
          obtain ⟨rfl, rfl⟩ := h
          exact ⟨hacc, hwf⟩
        | rparT =>
          simp only [bic_loop, Option.some.injEq, Prod.mk.injEq] at h
          obtain ⟨rfl, rfl⟩ := h
          exact ⟨hacc, hwf⟩

theorem parseText_wf (text : String) (e : Expression) (h : parseText text = some e) :
    wfExpr e = true := by
  unfold parseText at h
  rcases ht : tokenize text.data with _ | ts
  · rw [ht] at h; exact Option.noConfusion h
  · rw [ht] at h
    replace h : (match parse_biconditional (8 * ts.length + 8) ts with
        | some (e, []) => some e
        | _ => none) = some e := h
    rcases hb : parse_biconditional (8 * ts.length + 8) ts with _ | ⟨e2, rest⟩
    · rw [hb] at h; exact Option.noConfusion h
    · rw [hb] at h
      cases rest with
      | nil =>
        simp only [Option.some.injEq] at h
        subst h
        have hts : toksWF ts = true := tokenizeF_toksWF (text.data.length + 1) text.data ts ht
        exact ((parsers_wf (8 * ts.length + 8)).2.2.2.2.2.2.2.2.1 ts e2 [] hts hb).1
      | cons t2 ts2 => exact Option.noConfusion h

/-- C8: the render/parse round trip — whenever a formula text parses to an
Expression `e`, re-parsing the rendering `str(e)` yields the structurally
equal Expression `e` again, i.e. `parse(render(parse(text))) = parse(text)`
for every text the parser accepts. -/
theorem parse_render_round_trip (text : String) (e : Expression)
    (h : parseText text = some e) : parseText (strExpr e) = some e := by
  have hwf := parseText_wf text e h
  show parseText (strExpr e) = some e
  unfold parseText
  have hdata : (strExpr e).data = strChars e := rfl
  rw [hdata, tokenize_strChars e hwf]
  exact parseTokens_render e hwf

theorem parse_render_round_trip_witness :
    parseText "a=>b" = some (Implication (Atom "a") (Atom "b")) ∧
    parseText (strExpr (Implication (Atom "a") (Atom "b")))
      = some (Implication (Atom "a") (Atom "b")) :=
  ⟨by decide, parse_render_round_trip "a=>b" (Implication (Atom "a") (Atom "b")) (by decide)⟩

/-- C9: an empty or whitespace-only line tokenizes to the empty token
sequence, and the parser then fails (in the source, `parse_primary` raises
`Unexpected end of expression`), so parsing never returns an Expression. -/
theorem empty_input_parse_fails (s : String) (h : ∀ c ∈ s.data, isPySpace c = true) :
    parseText s = none := by
  unfold parseText
  rw [tokenize_only_spaces s.data h]
  rfl

theorem empty_input_parse_fails_witness :
    (∀ c ∈ ("".data), isPySpace c = true) ∧ (∀ c ∈ ("  ".data), isPySpace c = true) ∧
    parseText "" = none ∧ parseText "  " = none :=
  ⟨by decide, by decide, empty_input_parse_fails "" (by decide),
    empty_input_parse_fails "  " (by decide)⟩

/-- C6: the parser folds every repeated binary operator left-associatively —
concretely `a=>b=>c` parses as `(a=>b)=>c` and `a<=>b<=>c` as
`(a<=>b)<=>c`, and in general a chain of atoms joined by `=>` (resp. `<=>`)
parses to the left fold of `Implication` (resp. `Biconditional`) over the
chain (the `&` and `||` levels are the same `while`-loop construction). -/
theorem parser_left_associative :
    parseText "a=>b=>c"
      = some (Implication (Implication (Atom "a") (Atom "b")) (Atom "c")) ∧
    parseText "a<=>b<=>c"
      = some (Biconditional (Biconditional (Atom "a") (Atom "b")) (Atom "c")) ∧
    (∀ (a : String) (bs : List String),
      parseTokens (atomT a :: bs.flatMap fun b => [impT, atomT b])
        = some (bs.foldl (fun acc b => Implication acc (Atom b)) (Atom a))) ∧
    (∀ (a : String) (bs : List String),
      parseTokens (atomT a :: bs.flatMap fun b => [bicT, atomT b])
        = some (bs.foldl (fun acc b => Biconditional acc (Atom b)) (Atom a))) :=
  ⟨by decide, by decide, parseTokens_imp_chain, parseTokens_bic_chain⟩

/-- One iteration of the saturation loop equals: resolve all pairs (early
`True` exit), saturation check, then `contLoop` (the size-cap check followed
by the next iteration) on the merged clause set — so `contLoop` is exactly
the tail of the loop body that the size-cap theorem above speaks about. -/
theorem resolutionIter_succ_eq (fuel : Nat) (clauses : List Clause) (steps : List String)
    (iteration : Nat) :
    resolutionIter (fuel + 1) clauses steps iteration =
      match resolveAllPairs (iteration + 1) (allPairs clauses) steps [] with
      | Sum.inl finalSteps => (true, finalSteps)
      | Sum.inr (steps', newCs) =>
        if newCs.all (fun c => c ∈ clauses) then (false, steps' ++ [satMsg (iteration + 1)])
        else
          contLoop fuel (newCs.foldl (fun acc c => insertClause c acc) clauses) steps'
            (iteration + 1) := by
  rcases h : resolveAllPairs (iteration + 1) (allPairs clauses) steps [] with s | ⟨s2, new⟩
  · simp [resolutionIter, h]
  · simp only [resolutionIter, h, contLoop]

/-- `move_negations_inward` (phrased via `neg_inward` to make the recursion
structural) satisfies the source's recursion equations verbatim: double
negation elimination recurses, the two De Morgan cases recurse through
`move_negations_inward (Negation _)`, and a negated atom, implication or
biconditional is returned unchanged. -/
theorem move_negations_inward_eq_source :
    (∀ x, move_negations_inward (Negation (Negation x)) = move_negations_inward x) ∧
    (∀ l r, move_negations_inward (Negation (Conjunction l r)) =
      Disjunction (move_negations_inward (Negation l)) (move_negations_inward (Negation r))) ∧
    (∀ l r, move_negations_inward (Negation (Disjunction l r)) =
      Conjunction (move_negations_inward (Negation l)) (move_negations_inward (Negation r))) ∧
    (∀ s, move_negations_inward (Negation (Atom s)) = Negation (Atom s)) ∧
    (∀ l r, move_negations_inward (Negation (Implication l r)) = Negation (Implication l r)) ∧
    (∀ l r, move_negations_inward (Negation (Biconditional l r)) =
      Negation (Biconditional l r)) :=
  ⟨fun _ => rfl, fun _ _ => rfl, fun _ _ => rfl, fun _ => rfl, fun _ _ => rfl, fun _ _ => rfl⟩
